import Mathlib

/-!
# GitS indexer: facet folding, document codec and index maintenance

A shallow embedding of `server/indexer/bleve_indexer.go`.

Go strings are modelled by `String`, read as the list of their characters.
The separators the code looks for (`:`, `/`, `.`) are single bytes, so byte
offsets returned by `strings.LastIndex` cut the string at the same place as
the character offsets used here.  A Go runtime panic (nil pointer dereference,
index out of range) is modelled by the result `none`.
-/

namespace GitS

/-! ## Go `strings` helpers, for a one-character separator -/

/-- Go `strings.Contains(s, sep)` for a one-character `sep`. -/
def strings_Contains (s : String) (sep : Char) : Bool :=
  s.data.contains sep

/-- Go `strings.Count(s, sep)` for a one-character `sep`. -/
def strings_Count (s : String) (sep : Char) : Nat :=
  s.data.count sep

/-- Pieces of a character list between occurrences of `sep`. -/
def splitChars (sep : Char) : List Char → List (List Char)
  | [] => [[]]
  | c :: cs =>
    if c = sep then [] :: splitChars sep cs
    else
      match splitChars sep cs with
      | [] => [[c]]
      | seg :: rest => (c :: seg) :: rest

/-- Go `strings.Split(s, sep)` for a one-character `sep`. -/
def strings_Split (s : String) (sep : Char) : List String :=
  (splitChars sep s.data).map String.mk

/-- Offset of the last occurrence of `sep` in a character list. -/
def lastIndexChars (sep : Char) : List Char → Option Nat
  | [] => none
  | c :: cs =>
    match lastIndexChars sep cs with
    | some i => some (i + 1)
    | none => if c = sep then some 0 else none

/-- Go `strings.LastIndex(s, sep)` for a one-character `sep`; `-1` when absent. -/
def strings_LastIndex (s : String) (sep : Char) : Int :=
  match lastIndexChars sep s.data with
  | some i => (i : Int)
  | none => -1

/-- Go slice expression `s[0:hi]`; it panics when `hi` is negative or past the end. -/
def sliceTo (s : String) (hi : Int) : Option String :=
  if 0 ≤ hi ∧ hi ≤ (s.data.length : Int) then some (String.mk (s.data.take hi.toNat)) else none

/-- Go slice expression `s[lo:]`; it panics when `lo` is negative or past the end. -/
def sliceFrom (s : String) (lo : Int) : Option String :=
  if 0 ≤ lo ∧ lo ≤ (s.data.length : Int) then some (String.mk (s.data.drop lo.toNat)) else none

/-! ## Term classifiers (`isOrganization`, `isProject`, `isRepository`, `isRef`) -/

/-- Source `isOrganization`: no `:` in the term. -/
def isOrganization (path : String) : Bool × String :=
  if !strings_Contains path ':' then (true, path) else (false, "")

/-- Source `isProject`: `strings.Contains(path, ":") && !strings.Contains(path, "/")`. -/
def isProject (path : String) : Bool × String :=
  if strings_Contains path ':' && !strings_Contains path '/' then
    (true, ((strings_Split path ':')[1]?).getD "")
  else (false, "")

/-- Source `isRepository`: `strings.Count(path, ":") == 1 && strings.Contains(path, "/")`. -/
def isRepository (path : String) : Bool × String :=
  if strings_Count path ':' == 1 && strings_Contains path '/' then
    (true, ((strings_Split path '/')[1]?).getD "")
  else (false, "")

/-- Source `isRef`: `strings.Count(path, ":") == 2 && strings.Contains(path, "/")`. -/
def isRef (path : String) : Bool × String :=
  if strings_Count path ':' == 2 && strings_Contains path '/' then
    (true, ((sliceFrom path (strings_LastIndex path ':' + 1))).getD "")
  else (false, "")

/-! ## Facet tree (`facetResultToFullRefsFacet`) -/

/-- One bucket of the flat facet result (`search.TermFacet`). -/
structure TermFacet where
  term : String
  count : Int
  deriving DecidableEq, Repr

/-- Leaf of the facet tree. -/
structure RefFacet where
  term : String
  count : Int
  deriving DecidableEq, Repr

/-- Repository node with its refs. -/
structure RepositoryFacet where
  term : String
  count : Int
  refs : List RefFacet
  deriving DecidableEq, Repr

/-- Project node with its repositories. -/
structure ProjectFacet where
  term : String
  count : Int
  repositories : List RepositoryFacet
  deriving DecidableEq, Repr

/-- Organization node with its projects. -/
structure OrganizationFacet where
  term : String
  count : Int
  projects : List ProjectFacet
  deriving DecidableEq, Repr

/-- A Go `map[string]*T`: the entries in insertion order, keys pairwise different. -/
abbrev GoMap (α : Type) := List (String × α)

/-- Go `m[k]`: the entry stored under `k`, `none` for the nil pointer of an absent key. -/
def mapGet {α : Type} (m : GoMap α) (k : String) : Option α :=
  match m with
  | [] => none
  | (k', v) :: rest => if k' = k then some v else mapGet rest k

/-- Go `m[k] = v`: overwrite the entry of `k`, or add one. -/
def mapSet {α : Type} (m : GoMap α) (k : String) (v : α) : GoMap α :=
  match m with
  | [] => [(k, v)]
  | (k', v') :: rest => if k' = k then (k, v) :: rest else (k', v') :: mapSet rest k v

/-- The order in which each of the four `range` loops over a map visits the keys.
Go leaves it unspecified, so it is an input of the model: each field maps the
keys of the map (in insertion order) to the order of the visit. -/
structure RangeOrder where
  refs : List String → List String
  repositories : List String → List String
  projects : List String → List String
  organizations : List String → List String

/-- Every `range` loop visits each key of its map exactly once. -/
def RangeOrder.Valid (o : RangeOrder) : Prop :=
  (∀ ks, (o.refs ks).Perm ks) ∧ (∀ ks, (o.repositories ks).Perm ks) ∧
  (∀ ks, (o.projects ks).Perm ks) ∧ (∀ ks, (o.organizations ks).Perm ks)

/-- Visiting the keys in insertion order. -/
def RangeOrder.insertion : RangeOrder := ⟨id, id, id, id⟩

/-- Visiting the keys in reverse insertion order. -/
def RangeOrder.reversed : RangeOrder := ⟨List.reverse, List.reverse, List.reverse, List.reverse⟩

/-- Go `for k, v := range m` under the key order `ord`. -/
def rangeOver {α : Type} (ord : List String → List String) (m : GoMap α) : List (String × α) :=
  (ord (m.map Prod.fst)).filterMap (fun k => (mapGet m k).map (fun v => (k, v)))

/-- The four maps filled by the first loop of `facetResultToFullRefsFacet`. -/
structure FacetMaps where
  organizationsMap : GoMap OrganizationFacet
  projectsMap : GoMap ProjectFacet
  repositoriesMap : GoMap RepositoryFacet
  refsMap : GoMap RefFacet

/-- Body of the first loop: the four `if ok, x := isX(term); ok` statements. -/
def bucketTerm (ms : FacetMaps) (t : TermFacet) : FacetMaps :=
  { organizationsMap :=
      if (isOrganization t.term).1 then
        mapSet ms.organizationsMap t.term ⟨(isOrganization t.term).2, t.count, []⟩
      else ms.organizationsMap
    projectsMap :=
      if (isProject t.term).1 then
        mapSet ms.projectsMap t.term ⟨(isProject t.term).2, t.count, []⟩
      else ms.projectsMap
    repositoriesMap :=
      if (isRepository t.term).1 then
        mapSet ms.repositoriesMap t.term ⟨(isRepository t.term).2, t.count, []⟩
      else ms.repositoriesMap
    refsMap :=
      if (isRef t.term).1 then
        mapSet ms.refsMap t.term ⟨(isRef t.term).2, t.count⟩
      else ms.refsMap }

/-- One linking loop: for each child `(k, c)` look the parent up under
`parentKey k` and append a copy of `c` to the parent behind the pointer.
`none` is the panic of the run time: a slice bound out of range in `parentKey`,
or the nil pointer that the map returns for an absent parent. -/
def linkChildren {P C : Type} (parentKey : String → Option String) (addChild : P → C → P)
    (parents : GoMap P) (children : List (String × C)) : Option (GoMap P) :=
  children.foldlM (fun m kc =>
    match parentKey kc.1 with
    | none => none
    | some pk =>
      match mapGet m pk with
      | none => none
      | some parent => some (mapSet m pk (addChild parent kc.2))) parents

/-- Key of the parent of a ref: `k[0:strings.LastIndex(k, ":")]`. -/
def refParentKey (k : String) : Option String :=
  sliceTo k (strings_LastIndex k ':')

/-- Key of the parent of a repository: `strings.Split(k, "/")[0]`. -/
def repositoryParentKey (k : String) : Option String :=
  (strings_Split k '/')[0]?

/-- Key of the parent of a project: `strings.Split(k, ":")[0]`. -/
def projectParentKey (k : String) : Option String :=
  (strings_Split k ':')[0]?

/-- Source `facetResultToFullRefsFacet`, on the terms of the facet result. -/
def facetResultToFullRefsFacet (ord : RangeOrder) (terms : List TermFacet) :
    Option (List OrganizationFacet) :=
  let ms := terms.foldl bucketTerm ⟨[], [], [], []⟩
  match linkChildren refParentKey (fun (p : RepositoryFacet) (c : RefFacet) =>
      { p with refs := p.refs ++ [c] }) ms.repositoriesMap (rangeOver ord.refs ms.refsMap) with
  | none => none
  | some repositoriesMap =>
    match linkChildren repositoryParentKey (fun (p : ProjectFacet) (c : RepositoryFacet) =>
        { p with repositories := p.repositories ++ [c] }) ms.projectsMap
        (rangeOver ord.repositories repositoriesMap) with
    | none => none
    | some projectsMap =>
      match linkChildren projectParentKey (fun (p : OrganizationFacet) (c : ProjectFacet) =>
          { p with projects := p.projects ++ [c] }) ms.organizationsMap
          (rangeOver ord.projects projectsMap) with
      | none => none
      | some organizationsMap =>
        some ((rangeOver ord.organizations organizationsMap).map Prod.snd)

/-- The flat facet list of scenario 5 of the specification. -/
def scenarioFacets : List TermFacet :=
  [⟨"orgA", 10⟩, ⟨"orgA:projA", 7⟩, ⟨"orgA:projA/repoA", 7⟩,
   ⟨"orgA:projA/repoA:main", 5⟩, ⟨"orgA:projA/repoA:dev", 2⟩]


/-! ### The tree that the specification describes -/

/-- The four levels of a facet term. -/
inductive Level where
  | organization
  | project
  | repository
  | ref
  deriving DecidableEq, Repr

/-- The level of a term by the table of the specification: no `:` is an
Organization; exactly one `:` and no `/` a Project; exactly one `:` and a `/` a
Repository; exactly two `:` and a `/` a Ref; any other term has no level. -/
def levelByTable (term : String) : Option Level :=
  if strings_Count term ':' == 0 then some Level.organization
  else if strings_Count term ':' == 1 && !strings_Contains term '/' then some Level.project
  else if strings_Count term ':' == 1 && strings_Contains term '/' then some Level.repository
  else if strings_Count term ':' == 2 && strings_Contains term '/' then some Level.ref
  else none

/-- The short name of a term of the form `organization:project/repository:ref` at its
level: the whole term, the piece after the `:`, the piece after the `/`, the text
after the last `:`. -/
def specShortName : Level → String → String
  | Level.organization, term => term
  | Level.project, term => ((strings_Split term ':')[1]?).getD ""
  | Level.repository, term => ((strings_Split term '/')[1]?).getD ""
  | Level.ref, term => (sliceFrom term (strings_LastIndex term ':' + 1)).getD ""

/-- The refs of the repository term `repositoryKey`: the Ref terms of the table whose
text before the last `:` is `repositoryKey`, each with its short name and its count. -/
def specRefs (terms : List TermFacet) (repositoryKey : String) : List RefFacet :=
  terms.filterMap (fun t =>
    if levelByTable t.term == some Level.ref && refParentKey t.term == some repositoryKey then
      some ⟨specShortName Level.ref t.term, t.count⟩
    else none)

/-- The repositories of the project term `projectKey`: the Repository terms of the
table whose text before the first `/` is `projectKey`, each with its refs. -/
def specRepositories (terms : List TermFacet) (projectKey : String) : List RepositoryFacet :=
  terms.filterMap (fun t =>
    if levelByTable t.term == some Level.repository &&
        repositoryParentKey t.term == some projectKey then
      some ⟨specShortName Level.repository t.term, t.count, specRefs terms t.term⟩
    else none)

/-- The projects of the organization term `organizationKey`: the Project terms of the
table whose text before the `:` is `organizationKey`, each with its repositories. -/
def specProjects (terms : List TermFacet) (organizationKey : String) : List ProjectFacet :=
  terms.filterMap (fun t =>
    if levelByTable t.term == some Level.project &&
        projectParentKey t.term == some organizationKey then
      some ⟨specShortName Level.project t.term, t.count, specRepositories terms t.term⟩
    else none)

/-- The tree of the specification: one organization per Organization term of the
table, in the order of the flat list, each with its projects. -/
def specOrganizations (terms : List TermFacet) : List OrganizationFacet :=
  terms.filterMap (fun t =>
    if levelByTable t.term == some Level.organization then
      some ⟨specShortName Level.organization t.term, t.count, specProjects terms t.term⟩
    else none)

/-- Whether the list holds a term of level `level` whose full text is `key`. -/
def hasTerm (terms : List TermFacet) (level : Level) (key : Option String) : Bool :=
  terms.any (fun u => levelByTable u.term == some level && key == some u.term)

/-- Every Ref term of the table has its repository term in the list, every
Repository term its project term, every Project term its organization term. -/
def parentsPresent (terms : List TermFacet) : Bool :=
  terms.all (fun t =>
    (!(levelByTable t.term == some Level.ref) ||
      hasTerm terms Level.repository (refParentKey t.term)) &&
    (!(levelByTable t.term == some Level.repository) ||
      hasTerm terms Level.project (repositoryParentKey t.term)) &&
    (!(levelByTable t.term == some Level.project) ||
      hasTerm terms Level.organization (projectParentKey t.term)))

/-- No term of the list has several `:` and no `/`: every term that `isProject`
accepts is a Project of the table. -/
def projectsByTable (terms : List TermFacet) : Bool :=
  terms.all (fun t => !(isProject t.term).1 || levelByTable t.term == some Level.project)

/-- Two lists that agree up to the order of their elements, the elements being
compared by `R`. -/
def SameUpToOrder {α β : Type} (R : α → β → Prop) (l₁ : List α) (l₂ : List β) : Prop :=
  ∃ l, l₁.Perm l ∧ List.Forall₂ R l l₂

/-- Repositories that agree up to the order of their refs. -/
def RepositoryFacet.Equiv (a b : RepositoryFacet) : Prop :=
  a.term = b.term ∧ a.count = b.count ∧ a.refs.Perm b.refs

/-- Projects that agree up to the order of siblings below them. -/
def ProjectFacet.Equiv (a b : ProjectFacet) : Prop :=
  a.term = b.term ∧ a.count = b.count ∧
    SameUpToOrder RepositoryFacet.Equiv a.repositories b.repositories

/-- Organizations that agree up to the order of siblings below them. -/
def OrganizationFacet.Equiv (a b : OrganizationFacet) : Prop :=
  a.term = b.term ∧ a.count = b.count ∧
    SameUpToOrder ProjectFacet.Equiv a.projects b.projects

/-! ## Document codec (`docToFileIndex`) -/

/-- The `Metadata` part of a `FileIndex`, with the fields the indexer reads and writes. -/
structure Metadata where
  organization : String
  project : String
  repository : String
  refs : List String
  path : String
  ext : String
  deriving DecidableEq, Repr

/-- The indexed entity, with the fields the indexer reads and writes. -/
structure FileIndex where
  blob : String
  metadata : Metadata
  fullRefs : List String
  content : String
  deriving DecidableEq, Repr

/-- A stored field of a backend document: `Name()`, `Value()` and `ArrayPositions()`. -/
structure Field where
  name : String
  value : String
  arrayPositions : List Nat
  deriving DecidableEq, Repr

/-- A backend document (`document.Document`): its id and its stored fields. -/
structure Document where
  id : String
  fields : List Field
  deriving DecidableEq, Repr

/-- A Go `map[uint64]string`, entries in insertion order. -/
abbrev PosMap := List (Nat × String)

/-- Go `m[pos]` on a `map[uint64]string`, `none` when the key is absent. -/
def posGet (m : PosMap) (pos : Nat) : Option String :=
  match m with
  | [] => none
  | (k, v) :: rest => if k = pos then some v else posGet rest pos

/-- The statements `_, ok := m[pos]; if !ok { m[pos] = value }`. -/
def posMapAdd (m : PosMap) (pos : Nat) (value : String) : PosMap :=
  match posGet m pos with
  | some _ => m
  | none => m ++ [(pos, value)]

/-- The statements `s := make([]string, len(m)); for k, v := range m { s[k] = v }`;
an index `k` outside the slice panics. -/
def sliceOfPosMap (m : PosMap) : Option (List String) :=
  m.foldlM (fun acc kv => if kv.1 < acc.length then some (acc.set kv.1 kv.2) else none)
    (List.replicate m.length "")

/-- Local variables of `docToFileIndex` inside the loop over the fields. -/
structure DecodeState where
  fileIndex : FileIndex
  fullRefsMap : PosMap
  refsMap : PosMap
  deriving DecidableEq, Repr

/-- The zero value `var fileIndex FileIndex`. -/
def FileIndex.zero : FileIndex := ⟨"", ⟨"", "", "", [], "", ""⟩, [], ""⟩

/-- State at the entry of the loop of `docToFileIndex`. -/
def DecodeState.init : DecodeState := ⟨FileIndex.zero, [], []⟩

/-- Body of the loop of `docToFileIndex` for one field: the `switch name[0]` with
the nested `switch name[1]`.  `name[1]` and `f.ArrayPositions()[0]` panic when
the index is out of range. -/
def decodeField (st : DecodeState) (f : Field) : Option DecodeState :=
  let name := strings_Split f.name '.'
  let value := f.value
  match name[0]? with
  | none => none
  | some n0 =>
    if n0 = "blob" then
      some { st with fileIndex := { st.fileIndex with blob := value } }
    else if n0 = "fullRefs" then
      match f.arrayPositions[0]? with
      | none => none
      | some pos => some { st with fullRefsMap := posMapAdd st.fullRefsMap pos value }
    else if n0 = "content" then
      some { st with fileIndex := { st.fileIndex with content := value } }
    else if n0 = "metadata" then
      match name[1]? with
      | none => none
      | some n1 =>
        let md := st.fileIndex.metadata
        if n1 = "organization" then
          some { st with fileIndex := { st.fileIndex with metadata := { md with organization := value } } }
        else if n1 = "project" then
          some { st with fileIndex := { st.fileIndex with metadata := { md with project := value } } }
        else if n1 = "repository" then
          some { st with fileIndex := { st.fileIndex with metadata := { md with repository := value } } }
        else if n1 = "refs" then
          match f.arrayPositions[0]? with
          | none => none
          | some pos => some { st with refsMap := posMapAdd st.refsMap pos value }
        else if n1 = "path" then
          some { st with fileIndex := { st.fileIndex with metadata := { md with path := value } } }
        else if n1 = "ext" then
          some { st with fileIndex := { st.fileIndex with metadata := { md with ext := value } } }
        else some st
    else some st

/-- The part of `docToFileIndex` after the loop: both slices are built and stored. -/
def decodeFinish (st : DecodeState) : Option FileIndex :=
  match sliceOfPosMap st.fullRefsMap with
  | none => none
  | some fullRefs =>
    match sliceOfPosMap st.refsMap with
    | none => none
    | some refs =>
      some { st.fileIndex with
        fullRefs := fullRefs, metadata := { st.fileIndex.metadata with refs := refs } }

/-- The loop of `docToFileIndex` over the fields, from a given state. -/
def decodeFields (st : DecodeState) (fields : List Field) : Option DecodeState :=
  fields.foldlM decodeField st

/-- Source `docToFileIndex`; `none` is a panic of the run time. -/
def docToFileIndex (doc : Document) : Option FileIndex :=
  match decodeFields DecodeState.init doc.fields with
  | none => none
  | some st => decodeFinish st


/-- Whether `docToFileIndex` reads the field as an element of `metadata.refs`:
first segment `metadata`, second segment `refs`. -/
def readsAsRefs (f : Field) : Bool :=
  (strings_Split f.name '.')[0]? == some "metadata" && (strings_Split f.name '.')[1]? == some "refs"

/-- Whether `docToFileIndex` reads the field as an element of `fullRefs`: first
segment `fullRefs`. -/
def readsAsFullRefs (f : Field) : Bool :=
  (strings_Split f.name '.')[0]? == some "fullRefs"

/-- A field on which the loop body of `docToFileIndex` does not index out of range:
a name starting with the segment `metadata` has a second segment, and a field read
as a ref or as a full ref has an array position. -/
def fieldDecodable (f : Field) : Bool :=
  ((strings_Split f.name '.')[0]? != some "metadata" || ((strings_Split f.name '.')[1]?).isSome) &&
  ((!readsAsRefs f && !readsAsFullRefs f) || (f.arrayPositions[0]?).isSome)

/-- Value of the first field, in document order, that is selected by `sel` and
has the array position `p`. -/
def firstValueAt (sel : Field → Bool) (fields : List Field) (p : Nat) : Option String :=
  (fields.find? (fun f => sel f && f.arrayPositions[0]? == some p)).map Field.value

/-- Whether the first segment and, under `metadata`, the second segment of a field
name are none of those that `docToFileIndex` dispatches on. -/
def isUnknownFieldName (name : String) : Bool :=
  match (strings_Split name '.')[0]? with
  | none => false
  | some n0 =>
    if n0 = "metadata" then
      match (strings_Split name '.')[1]? with
      | none => false
      | some n1 => !(["organization", "project", "repository", "refs", "path", "ext"].contains n1)
    else !(["blob", "fullRefs", "content"].contains n0)

/-- The nine dotted field names of a `FileIndex`. -/
def knownFieldNames : List String :=
  ["blob", "content", "fullRefs", "metadata.organization", "metadata.project",
   "metadata.repository", "metadata.refs", "metadata.path", "metadata.ext"]

/-! ## Helpers of the package that the indexer calls -/

/-- Modelled from the spec: `getDocId` and the extension rule of `fillFileIndex` are
not in the sources at hand.  The spec says that the document id is a deterministic
function of `(organization, project, repository, blob)` and that `ext` is computed
from `path`; both functions are parameters of the model. -/
structure Helpers where
  docId : String → String → String → String → String
  ext : String → String

/-- Modelled from the spec: `getDocId`, the id of the document of a `FileIndex`,
a function of its scope and blob. -/
def getDocId (H : Helpers) (f : FileIndex) : String :=
  H.docId f.metadata.organization f.metadata.project f.metadata.repository f.blob

/-- Modelled from the spec: the full ref `organization:project/repository:ref`. -/
def fullRef (md : Metadata) (ref : String) : String :=
  md.organization ++ ":" ++ md.project ++ "/" ++ md.repository ++ ":" ++ ref

/-- Modelled from the spec: `fillFileIndex` computes `ext` from `path` and builds
`fullRefs` from the scope and `refs`. -/
def fillFileIndex (H : Helpers) (f : FileIndex) : FileIndex :=
  { f with
    metadata := { f.metadata with ext := H.ext f.metadata.path }
    fullRefs := f.metadata.refs.map (fullRef f.metadata) }

/-- Modelled from the spec: the union of `RefSet.merge`, keeping the existing order
and appending the new refs in input order, duplicates absorbed. -/
def mergeRefs (existing incoming : List String) : List String :=
  incoming.foldl (fun acc r => if r ∈ acc then acc else acc ++ [r]) existing

/-- Modelled from the spec: `mergeRef` (`RefSet.merge`) updates the refs of the
`FileIndex` in place, recomputes `fullRefs`, and returns true iff no new ref was added. -/
def mergeRef (f : FileIndex) (refs : List String) : FileIndex × Bool :=
  let merged := mergeRefs f.metadata.refs refs
  ({ f with metadata := { f.metadata with refs := merged }
            fullRefs := merged.map (fullRef f.metadata) },
   refs.all (fun r => f.metadata.refs.contains r))

/-- Modelled from the spec: `removeRef` (`RefSet.remove`) deletes every ref of
`toRemove` in place, recomputes `fullRefs`, and returns true iff no ref is left. -/
def removeRef (f : FileIndex) (toRemove : List String) : FileIndex × Bool :=
  let kept := f.metadata.refs.filter (fun r => !toRemove.contains r)
  ({ f with metadata := { f.metadata with refs := kept }
            fullRefs := kept.map (fullRef f.metadata) },
   kept.isEmpty)

/-! ## The search backend -/

/-- The `store` flag that `MAPPING` gives each field: true for every field but `content`. -/
def MAPPING_store (name : String) : Bool :=
  if name = "content" then false else true

/-- One field per element of a repeated value, with its array position. -/
def arrayFields (name : String) (values : List String) : List Field :=
  values.enum.map (fun iv => ⟨name, iv.2, [iv.1]⟩)

/-- The fields that the mapping derives from a `FileIndex`: one per scalar, one per
element of `refs` and `fullRefs`. -/
def mappedFields (f : FileIndex) : List Field :=
  [⟨"blob", f.blob, []⟩] ++ arrayFields "fullRefs" f.fullRefs ++ [⟨"content", f.content, []⟩] ++
  [⟨"metadata.organization", f.metadata.organization, []⟩,
   ⟨"metadata.project", f.metadata.project, []⟩,
   ⟨"metadata.repository", f.metadata.repository, []⟩] ++
  arrayFields "metadata.refs" f.metadata.refs ++
  [⟨"metadata.path", f.metadata.path, []⟩, ⟨"metadata.ext", f.metadata.ext, []⟩]

/-- The fields of the document that the backend keeps for a `FileIndex` under `MAPPING`. -/
def storedFields (f : FileIndex) : List Field :=
  (mappedFields f).filter (fun fld => MAPPING_store fld.name)

/-- An entry of a `bleve.Batch`. -/
inductive BatchOp where
  | index (id : String) (f : FileIndex)
  | delete (id : String)
  deriving DecidableEq, Repr

/-- The index behind `b.client`: the indexed entities by document id in the order of
their first write, the error that a commit of a batch reports (if commits fail), and
the number of write calls (`Index`, `Delete`, `Batch`) received so far. -/
structure Client where
  docs : List (String × FileIndex)
  commitError : Option String
  writes : Nat
  deriving DecidableEq, Repr

/-- Overwrite or add the entity stored under `id`. -/
def putDoc (docs : List (String × FileIndex)) (id : String) (f : FileIndex) :
    List (String × FileIndex) :=
  match docs with
  | [] => [(id, f)]
  | (k, g) :: rest => if k = id then (id, f) :: rest else (k, g) :: putDoc rest id f

/-- The entity stored under `id`, if any. -/
def getDoc (docs : List (String × FileIndex)) (id : String) : Option FileIndex :=
  match docs with
  | [] => none
  | (k, g) :: rest => if k = id then some g else getDoc rest id

/-- Backend `Document(id)`: the stored document, `none` (Go `nil`) when absent. -/
def Client.Document (c : Client) (id : String) : Option Document :=
  (getDoc c.docs id).map (fun f => ⟨id, storedFields f⟩)

/-- Every document of the index is stored under the id of its own scope and blob,
as `_index` writes it. -/
def IdsAgree (H : Helpers) (c : Client) : Prop :=
  ∀ kv ∈ c.docs, getDocId H kv.2 = kv.1

/-- Backend `Index(id, f)`. -/
def Client.Index (c : Client) (id : String) (f : FileIndex) : Client :=
  { c with docs := putDoc c.docs id f, writes := c.writes + 1 }

/-- Backend `Delete(id)`. -/
def Client.Delete (c : Client) (id : String) : Client :=
  { c with docs := c.docs.filter (fun kv => kv.1 != id), writes := c.writes + 1 }

/-- Effect of one batch entry on the stored entities. -/
def applyBatchOp (docs : List (String × FileIndex)) : BatchOp → List (String × FileIndex)
  | BatchOp.index id f => putDoc docs id f
  | BatchOp.delete id => docs.filter (fun kv => kv.1 != id)

/-- Backend `Batch(batch)`: the commit applies the entries in order, or reports its
error and changes nothing. -/
def Client.Batch (c : Client) (batch : List BatchOp) : Client × Option String :=
  match c.commitError with
  | some e => ({ c with writes := c.writes + 1 }, some e)
  | none => ({ c with docs := batch.foldl applyBatchOp c.docs, writes := c.writes + 1 }, none)

/-- A search request: the query as a predicate on the indexed entity, `From` and `Size`. -/
structure SearchRequest where
  query : FileIndex → Bool
  From : Nat
  Size : Nat

/-- Backend `Search(request)`: the ids of the matching documents sliced by `From` and `Size`. -/
def Client.Search (c : Client) (r : SearchRequest) : List String :=
  (((c.docs.filter (fun kv => r.query kv.2)).drop r.From).take r.Size).map Prod.fst

/-! ## Indexer operations -/

/-- What a method of the indexer leaves behind: the backend, the batch it was given
(`none` for the Go `nil` batch) and the error it returns. -/
structure Outcome where
  client : Client
  batch : Option (List BatchOp)
  err : Option String
  deriving DecidableEq, Repr

/-- Source `_index`: write directly when `batch == nil`, else add to the batch. -/
def _index (H : Helpers) (c : Client) (batch : Option (List BatchOp)) (f : FileIndex) : Outcome :=
  match batch with
  | none => ⟨c.Index (getDocId H f) f, none, none⟩
  | some ops => ⟨c, some (ops ++ [BatchOp.index (getDocId H f) f]), none⟩

/-- Source `_delete`: delete directly when `batch == nil`, else add to the batch. -/
def _delete (c : Client) (batch : Option (List BatchOp)) (docID : String) : Outcome :=
  match batch with
  | none => ⟨c.Delete docID, none, none⟩
  | some ops => ⟨c, some (ops ++ [BatchOp.delete docID]), none⟩

/-- Source `create`. -/
def create (H : Helpers) (c : Client) (batch : Option (List BatchOp)) (requestFileIndex : FileIndex) :
    Outcome :=
  _index H c batch (fillFileIndex H requestFileIndex)

/-- Source `upsert`; `none` is a panic inside `docToFileIndex`. -/
def upsert (H : Helpers) (c : Client) (batch : Option (List BatchOp)) (requestFileIndex : FileIndex) :
    Option Outcome :=
  let request := fillFileIndex H requestFileIndex
  match c.Document (getDocId H request) with
  | none => some (create H c batch request)
  | some doc =>
    match docToFileIndex doc with
    | none => none
    | some fileIndex =>
      let merged := mergeRef fileIndex request.metadata.refs
      if merged.2 then some ⟨c, batch, none⟩
      else some (_index H c batch merged.1)

/-- Source `deleteByDoc`; `none` is a panic inside `docToFileIndex`. -/
def deleteByDoc (H : Helpers) (c : Client) (batch : Option (List BatchOp)) (doc : Option Document)
    (refs : List String) : Option Outcome :=
  match doc with
  | none => some ⟨c, batch, none⟩
  | some d =>
    match docToFileIndex d with
    | none => none
    | some fileIndex =>
      let removed := removeRef fileIndex refs
      if removed.2 then some (_delete c batch d.id)
      else some (_index H c batch removed.1)

/-- Source `delete`. -/
def delete (H : Helpers) (c : Client) (batch : Option (List BatchOp)) (requestFileIndex : FileIndex) :
    Option Outcome :=
  deleteByDoc H c batch (c.Document (getDocId H requestFileIndex)) requestFileIndex.metadata.refs

/-- Source `UpsertFileIndex`. -/
def UpsertFileIndex (H : Helpers) (c : Client) (requestFileIndex : FileIndex) : Option Outcome :=
  upsert H c none requestFileIndex

/-- The methods of a batch operation. -/
inductive Method where
  | ADD
  | DELETE
  deriving DecidableEq, Repr

/-- One operation of a batch request. -/
structure FileIndexOperation where
  method : Method
  fileIndex : FileIndex
  deriving DecidableEq, Repr

/-- Body of the loop of `BatchFileIndex`: the return values of `upsert` and `delete`
are dropped, only the batch is carried on. -/
def batchStep (H : Helpers) (c : Client) (batch : List BatchOp) (op : FileIndexOperation) :
    Option (List BatchOp) :=
  match op.method with
  | Method.ADD =>
    match upsert H c (some batch) op.fileIndex with
    | none => none
    | some out => some (out.batch.getD batch)
  | Method.DELETE =>
    match delete H c (some batch) op.fileIndex with
    | none => none
    | some out => some (out.batch.getD batch ++ [BatchOp.delete op.fileIndex.blob])

/-- Source `BatchFileIndex`: the backend after the call and the error returned. -/
def BatchFileIndex (H : Helpers) (c : Client) (requestBatch : List FileIndexOperation) :
    Option (Client × Option String) :=
  match requestBatch.foldlM (batchStep H c) [] with
  | none => none
  | some batch => some ((c.Batch batch).1, none)

/-- Result of a loop that runs on fuel. -/
inductive LoopResult (α : Type) where
  | done (a : α)
  | panicked
  | outOfFuel
  deriving DecidableEq, Repr

/-- Source `handleSearch`: search, stop on an empty page, else run the callback and
advance `From` by the number of hits. -/
def handleSearch (callback : Client → List String → Option Client) :
    Nat → Client → SearchRequest → LoopResult Client
  | 0, _, _ => LoopResult.outOfFuel
  | fuel + 1, c, searchRequest =>
    let hits := c.Search searchRequest
    if hits.length = 0 then LoopResult.done c
    else
      match callback c hits with
      | none => LoopResult.panicked
      | some c1 =>
        handleSearch callback fuel c1 { searchRequest with From := searchRequest.From + hits.length }

/-- The query built by `searchByRefs`: the scope, and at least one of the refs. -/
def refsQuery (organization project repository : String) (refs : List String) (f : FileIndex) :
    Bool :=
  (f.metadata.organization == organization && f.metadata.project == project &&
    f.metadata.repository == repository) && refs.any (fun ref => f.metadata.refs.contains ref)

/-- Source `searchByRefs`. -/
def searchByRefs (fuel : Nat) (c : Client) (organization project repository : String)
    (refs : List String) (callback : Client → List String → Option Client) : LoopResult Client :=
  handleSearch callback fuel c ⟨refsQuery organization project repository refs, 0, 100⟩

/-- The callback of `DeleteIndexByRefs`: one batch per page, committed at the end. -/
def deleteCallback (H : Helpers) (refs : List String) (c : Client) (hits : List String) :
    Option Client :=
  match hits.foldlM (fun batch id =>
      match deleteByDoc H c (some batch) (c.Document id) refs with
      | none => none
      | some out => some (out.batch.getD batch)) [] with
  | none => none
  | some batch => some (c.Batch batch).1

/-- Source `DeleteIndexByRefs`. -/
def DeleteIndexByRefs (H : Helpers) (fuel : Nat) (c : Client)
    (organization project repository : String) (refs : List String) : LoopResult Client :=
  searchByRefs fuel c organization project repository refs (deleteCallback H refs)

/-- Modelled from the spec: a valid `FileIndex` has non-empty unique refs, `fullRefs`
aligned with `refs`, and the canonical `ext` of its path. -/
def isValidFileIndex (H : Helpers) (f : FileIndex) : Bool :=
  !f.metadata.refs.isEmpty && decide f.metadata.refs.Nodup &&
  decide (f.fullRefs = f.metadata.refs.map (fullRef f.metadata)) &&
  decide (f.metadata.ext = H.ext f.metadata.path)

/-! ## Query side (`search`) -/

/-- A query handed to the backend: the query that the `qs` parser returns (kept as its
text), `bleve.NewQueryStringQuery`, `bleve.NewConjunctionQuery` and
`bleve.NewDisjunctionQuery`. -/
inductive Query where
  | parsed (text : String)
  | queryString (query : String)
  | conjunction (conjuncts : List Query)
  | disjunction (disjuncts : List Query)

/-- The filter of a search, with the one field that `search` reads. -/
structure FilterParams where
  ext : List String
  deriving DecidableEq, Repr

/-- The loop of `search` over `filterParams.Ext`: one query string filter per entry
that is not the empty string. -/
def extFilters (filterParams : FilterParams) : List Query :=
  filterParams.ext.foldl (fun extFilters ext =>
    if ext != "" then extFilters ++ [Query.queryString ("metadata.ext:" ++ ext)]
    else extFilters) []

/-- The query that `search` puts into the search request: the parsed query, wrapped
into a conjunction with the disjunction of the filters when there is a filter. -/
def filteredQuery (q : Query) (filterParams : FilterParams) : Query :=
  if (extFilters filterParams).length > 0 then
    Query.conjunction [q, Query.disjunction (extFilters filterParams)]
  else q

/-- The `Source` of a hit. -/
structure Source where
  blob : String
  metadata : Metadata
  deriving DecidableEq, Repr

/-- A fragment of a preview as `FilterBlob` returns it. -/
structure PreviewText where
  offset : Nat
  preview : String
  deriving DecidableEq, Repr

/-- A hit of the search result. -/
structure Hit where
  source : Source
  preview : List PreviewText
  keyword : List String
  deriving DecidableEq, Repr

/-- A hit of the backend: `hit.ID` and the words that are the keys of
`hit.Locations["content"]`. -/
structure BackendHit where
  id : String
  contentWords : List String
  deriving DecidableEq, Repr

/-- The answer of the backend to a search request: hits, total, and the terms of
each facet by facet name. -/
structure BackendResult where
  hits : List BackendHit
  total : Nat
  facets : GoMap (List TermFacet)
  deriving DecidableEq, Repr

/-- What `search` takes from outside the indexer: the query parser (`none` for a
parse error), the answer of the backend to a query, and the preview that
`getGitRepo` and `FilterBlob` give for a source and the hit words (`none` when
`getGitRepo` fails). -/
structure SearchEnv where
  parse : String → Option Query
  backend : Query → BackendResult
  preview : Source → List String → Option (List PreviewText)

/-- The result of `search`. -/
structure SearchResult where
  query : String
  filterParams : FilterParams
  hits : List Hit
  size : Nat
  facets : GoMap (List TermFacet)
  fullRefsFacet : Option (List OrganizationFacet)
  deriving DecidableEq, Repr

/-- Body of the loop of `search` over the hits.  The outer `none` is a panic:
`docToFileIndex(doc)` reads `doc.Fields`, which dereferences the nil pointer that
`Document` returns for an absent document.  The inner `none` is a `continue`. -/
def searchHit (c : Client) (env : SearchEnv) (hit : BackendHit) : Option (Option Hit) :=
  match c.Document hit.id with
  | none => none
  | some doc =>
    match docToFileIndex doc with
    | none => none
    | some fileIndex =>
      let s : Source := ⟨fileIndex.blob, fileIndex.metadata⟩
      match env.preview s hit.contentWords with
      | none => some none
      | some preview => some (some ⟨s, preview, hit.contentWords⟩)

/-- The loop of `search` over the hits: the list of emitted hits. -/
def searchHits (c : Client) (env : SearchEnv) (hits : List BackendHit) : Option (List Hit) :=
  hits.foldlM (fun list hit =>
    match searchHit c env hit with
    | none => none
    | some none => some list
    | some (some h) => some (list ++ [h])) []

/-- The part of `search` after the call `b.client.Search(s)`: the loop over the hits
of the backend's answer, the facets, and the result. -/
def searchResultOf (ord : RangeOrder) (c : Client) (env : SearchEnv) (queryString : String)
    (filterParams : FilterParams) (searchResults : BackendResult) : Option SearchResult :=
  match searchHits c env searchResults.hits with
  | none => none
  | some list =>
    match mapGet searchResults.facets "fullRefs" with
    | none => none
    | some terms =>
      match facetResultToFullRefsFacet ord terms with
      | none => none
      | some fullRefsFacet =>
        some ⟨queryString, filterParams, list, searchResults.total, searchResults.facets,
          some fullRefsFacet⟩

/-- Source `search`; `none` is a panic of the run time. -/
def search (ord : RangeOrder) (c : Client) (env : SearchEnv) (queryString : String)
    (filterParams : FilterParams) : Option SearchResult :=
  match env.parse queryString with
  | none => some ⟨queryString, filterParams, [], 0, [], none⟩
  | some q =>
    searchResultOf ord c env queryString filterParams
      (env.backend (filteredQuery q filterParams))

/-! ## Importer (`GitImporter.Run`) -/

/-- Whether the character list starts with `sep`. -/
def startsWithChars : List Char → List Char → Bool
  | [], _ => true
  | _ :: _, [] => false
  | s :: sep, c :: cs => s == c && startsWithChars sep cs

/-- Pieces of a character list between the occurrences of a non-empty `sep`, found
from left to right without overlap; `skip` characters of a separator are still to be
passed over, `cur` is the piece read so far, reversed. -/
def splitOnChars (sep : List Char) : Nat → List Char → List Char → List (List Char)
  | _, cur, [] => [cur.reverse]
  | skip + 1, cur, _ :: cs => splitOnChars sep skip cur cs
  | 0, cur, c :: cs =>
    if startsWithChars sep (c :: cs) then cur.reverse :: splitOnChars sep (sep.length - 1) [] cs
    else splitOnChars sep 0 (c :: cur) cs

/-- Go `strings.Split(s, sep)` for a non-empty separator string. -/
def strings_SplitStr (s sep : String) : List String :=
  (splitOnChars sep.data 0 [] s.data).map String.mk

/-- The repository name that `GitImporter.Run` derives from the clone URL: the last
`/` segment, replaced by what stands before the first `.git` when `strings.Split`
by `.git` gives more than one piece. -/
def Run_repoName (url : String) : Option String :=
  let splitedUrl := strings_Split url '/'
  match splitedUrl[splitedUrl.length - 1]? with
  | none => none
  | some repoName =>
    let splitedRepoNames := strings_SplitStr repoName ".git"
    if splitedRepoNames.length > 1 then splitedRepoNames[0]? else some repoName

/-- The repository name that the comment `Drop ".git" from repoName` describes: the
last `/` segment without a trailing `.git`. -/
def specRepoName (url : String) : String :=
  let segment := ((strings_Split url '/').getLast?).getD ""
  if startsWithChars ".git".data.reverse segment.data.reverse then
    String.mk (segment.data.take (segment.data.length - 4))
  else segment

/-! ## Pages of a scan -/

/-- The pages of `size` hits into which a result list falls, at most `fuel` of them. -/
def pagesOf (size : Nat) : Nat → List String → List (List String)
  | 0, _ => []
  | fuel + 1, results =>
    if (results.take size).length = 0 then []
    else results.take size :: pagesOf size fuel (results.drop (results.take size).length)

/-- Calling the callback on each page in turn. -/
def runPages (callback : Client → List String → Option Client) (c : Client)
    (pages : List (List String)) : LoopResult Client :=
  match pages.foldlM callback c with
  | some c1 => LoopResult.done c1
  | none => LoopResult.panicked

/-! ## Sample data -/

/-- A document id in the shape `organization:project:repository:blob`. -/
def sampleDocId (o p r b : String) : String :=
  o ++ ":" ++ p ++ ":" ++ r ++ ":" ++ b

/-- The text from the last `.` of a path on, lowercased; empty without a `.`. -/
def sampleExt (path : String) : String :=
  match lastIndexChars '.' path.data with
  | some i => String.mk ((path.data.drop i).map Char.toLower)
  | none => ""

/-- Helpers used to run the model on concrete data. -/
def sampleHelpers : Helpers := ⟨sampleDocId, sampleExt⟩

/-- The `i`-th of a family of files of repository `o:p/r`, all on the ref `main`;
the blob is `i` written in binary. -/
def sampleDoc (i : Nat) : FileIndex :=
  ⟨String.mk (Nat.toDigits 2 i), ⟨"o", "p", "r", ["main"], "f", ""⟩, ["o:p/r:main"], "text"⟩

/-- A backend holding the first `n` sample files, with working commits. -/
def sampleClient (n : Nat) : Client :=
  ⟨(List.range n).map (fun i => (getDocId sampleHelpers (sampleDoc i), sampleDoc i)), none, 0⟩

/-- The file of scenario 1 of the specification, on the ref `main`. -/
def readmeMain : FileIndex :=
  ⟨"H", ⟨"orgA", "projA", "repoA", ["main"], "README.md", ".md"⟩, ["orgA:projA/repoA:main"],
   "hello world"⟩

/-- The same file on the ref `dev`. -/
def readmeDev : FileIndex :=
  ⟨"H", ⟨"orgA", "projA", "repoA", ["dev"], "README.md", ".md"⟩, ["orgA:projA/repoA:dev"],
   "hello world"⟩

/-- A backend that holds `readmeMain` only. -/
def readmeClient : Client :=
  ⟨[(getDocId sampleHelpers readmeMain, readmeMain)], none, 0⟩

/-- The backend of `readmeClient` with commits that fail. -/
def failingClient : Client :=
  { readmeClient with commitError := some "disk full" }

/-- Helpers whose document id is the blob alone. -/
def blobIdHelpers : Helpers := ⟨fun _ _ _ b => b, sampleExt⟩

/-- The file of scenario 1 after both branches are indexed, as the index stores it. -/
def readmeBoth : FileIndex :=
  ⟨"H", ⟨"orgA", "projA", "repoA", ["main", "dev"], "README.md", ".md"⟩,
   ["orgA:projA/repoA:main", "orgA:projA/repoA:dev"], "hello world"⟩

/-- A backend that holds `readmeBoth` only, under the id that `H` gives it. -/
def readmeBothClient (H : Helpers) : Client :=
  ⟨[(getDocId H readmeBoth, readmeBoth)], none, 0⟩

/-- An empty backend with working commits. -/
def emptyClient : Client := ⟨[], none, 0⟩

/-- A search environment for `readmeClient`: every query string parses, the backend
answers every query with the hit `readmeMain` followed by a hit whose document is
gone, and every source has the same one-line preview. -/
def staleHitEnv : SearchEnv :=
  { parse := fun text => some (Query.parsed text)
    backend := fun _ =>
      ⟨[⟨getDocId sampleHelpers readmeMain, ["hello"]⟩, ⟨"orgA:projA:repoA:gone", ["hello"]⟩], 2,
       [("fullRefs", [⟨"orgA", 1⟩]), ("ext", [⟨".md", 1⟩])]⟩
    preview := fun _ _ => some [⟨1, "hello world"⟩] }

/-- The same environment with a backend that returns the hit `readmeMain` only. -/
def liveHitEnv : SearchEnv :=
  { staleHitEnv with
    backend := fun _ =>
      ⟨[⟨getDocId sampleHelpers readmeMain, ["hello"]⟩], 1,
       [("fullRefs", [⟨"orgA", 1⟩]), ("ext", [⟨".md", 1⟩])]⟩ }

/-- The whole result list of the request that `searchByRefs` builds: the ids of the
matching documents in backend order. -/
def refsResults (c : Client) (organization project repository : String) (refs : List String) :
    List String :=
  (c.docs.filter (fun kv => refsQuery organization project repository refs kv.2)).map Prod.fst

/-- A callback that only counts the hits it is given, in the write counter. -/
def countingCallback (c : Client) (hits : List String) : Option Client :=
  some { c with writes := c.writes + hits.length }

/-- A backend that tells by the total of its answer which query it was sent: 100 for
a bare parsed query, the number of filters for a conjunction of a parsed query with a
disjunction, 999 for any other query. -/
def probeBackend : Query → BackendResult
  | Query.parsed _ => ⟨[], 100, [("fullRefs", [])]⟩
  | Query.conjunction [Query.parsed _, Query.disjunction filters] =>
    ⟨[], filters.length, [("fullRefs", [])]⟩
  | _ => ⟨[], 999, [("fullRefs", [])]⟩

/-- A search environment around `probeBackend`: every query string parses. -/
def probeEnv : SearchEnv :=
  { parse := fun text => some (Query.parsed text)
    backend := probeBackend
    preview := fun _ _ => some [] }

/-! # Theorems -/

/-! ## Classifiers -/

theorem strings_Contains_iff (s : String) (c : Char) :
    strings_Contains s c = true ↔ c ∈ s.data := by
  simp [strings_Contains]

/-- What the four classifiers accept: `isProject` asks for at least one `:`, the
other three follow the table of the specification. -/
theorem classifiers_accept (path : String) :
    ((isOrganization path).1 = true ↔ ¬ ':' ∈ path.data) ∧
    ((isProject path).1 = true ↔ (':' ∈ path.data ∧ ¬ '/' ∈ path.data)) ∧
    ((isRepository path).1 = true ↔ (path.data.count ':' = 1 ∧ '/' ∈ path.data)) ∧
    ((isRef path).1 = true ↔ (path.data.count ':' = 2 ∧ '/' ∈ path.data)) := by
  refine ⟨?_, ?_, ?_, ?_⟩
  · unfold isOrganization
    by_cases h : ':' ∈ path.data <;> simp [strings_Contains, h]
  · unfold isProject
    by_cases h : ':' ∈ path.data <;> by_cases h2 : '/' ∈ path.data <;>
      simp [strings_Contains, h, h2]
  · unfold isRepository
    by_cases h : path.data.count ':' = 1 <;> by_cases h2 : '/' ∈ path.data <;>
      simp [strings_Contains, strings_Count, h, h2]
  · unfold isRef
    by_cases h : path.data.count ':' = 2 <;> by_cases h2 : '/' ∈ path.data <;>
      simp [strings_Contains, strings_Count, h, h2]

/-- C3: `isProject` accepts the term `a:b:c`, which has two `:` and no `/`, and names
it `b`; the table of the specification asks for exactly one `:`. -/
theorem isProject_accepts_two_colons :
    strings_Count "a:b:c" ':' = 2 ∧ strings_Contains "a:b:c" '/' = false ∧
    isProject "a:b:c" = (true, "b") := by
  decide

/-! ## Facet tree -/

/-- C4: on the orphan ref `orgA:projA/repoA:main`, whose repository term is not in
the list, `facetResultToFullRefsFacet` panics (nil parent) instead of dropping it,
whatever the order of the map iteration; the same happens when the other terms are
well placed. -/
theorem facetResultToFullRefsFacet_orphan_panics :
    facetResultToFullRefsFacet RangeOrder.insertion [⟨"orgA:projA/repoA:main", 5⟩] = none ∧
    facetResultToFullRefsFacet RangeOrder.reversed [⟨"orgA:projA/repoA:main", 5⟩] = none ∧
    facetResultToFullRefsFacet RangeOrder.insertion
      [⟨"orgA", 10⟩, ⟨"orgA:projA", 7⟩, ⟨"orgA:projA/repoA", 7⟩, ⟨"orgA:projA/repoA:main", 5⟩,
       ⟨"orgA:projA/repoB:dev", 2⟩] = none ∧
    facetResultToFullRefsFacet RangeOrder.insertion
      [⟨"orgA", 10⟩, ⟨"orgA:projA/repoA", 7⟩] = none ∧
    facetResultToFullRefsFacet RangeOrder.insertion [⟨"orgA:projA", 7⟩] = none := by
  decide

/-! ## Index maintenance -/

/-- C9: upserting `readmeDev` over the indexed `readmeMain` writes a `FileIndex`
with the merged refs and an empty `content`: the content that was indexed, and the
content of the request, are not written back. -/
theorem upsert_rewrite_drops_content :
    readmeMain.content = "hello world" ∧
    (upsert sampleHelpers readmeClient none readmeDev).map (fun out => out.client.docs) =
      some [(getDocId sampleHelpers readmeMain,
        ⟨"H", ⟨"orgA", "projA", "repoA", ["main", "dev"], "README.md", ".md"⟩,
         ["orgA:projA/repoA:main", "orgA:projA/repoA:dev"], ""⟩)] := by
  decide

/-- `BatchFileIndex` returns no error, whatever the backend and the operations. -/
theorem BatchFileIndex_err (H : Helpers) (c : Client) (ops : List FileIndexOperation) :
    ((BatchFileIndex H c ops).map Prod.snd).getD none = none := by
  unfold BatchFileIndex
  cases ops.foldlM (batchStep H c) [] <;> rfl

/-- C10: on a backend whose commits fail with `disk full`, the commit of the batch
accumulated for `[ADD readmeDev]` reports that error, and `BatchFileIndex` still
returns no error. -/
theorem BatchFileIndex_hides_commit_error :
    (([⟨Method.ADD, readmeDev⟩] : List FileIndexOperation).foldlM
        (batchStep sampleHelpers failingClient) []).map
      (fun batch => (failingClient.Batch batch).2) = some (some "disk full") ∧
    (BatchFileIndex sampleHelpers failingClient [⟨Method.ADD, readmeDev⟩]).map Prod.snd =
      some none := by
  decide


/-! ## Document codec -/

theorem posGet_append (m₁ m₂ : PosMap) (p : Nat) :
    posGet (m₁ ++ m₂) p = (posGet m₁ p).orElse (fun _ => posGet m₂ p) := by
  induction m₁ with
  | nil => simp [posGet]
  | cons kv rest ih =>
    obtain ⟨k, v⟩ := kv
    by_cases h : k = p
    · simp [posGet, h]
    · simp [posGet, h, ih]

theorem posGet_eq_none_iff (m : PosMap) (p : Nat) :
    posGet m p = none ↔ p ∉ m.map Prod.fst := by
  induction m with
  | nil => simp [posGet]
  | cons kv rest ih =>
    obtain ⟨k, v⟩ := kv
    by_cases h : k = p
    · simp [posGet, h]
    · simp only [posGet, h, if_false, ih, List.map_cons, List.mem_cons, not_or]
      constructor
      · intro h2; exact ⟨fun e => h e.symm, h2⟩
      · intro h2; exact h2.2

theorem posMapAdd_keys_nodup (m : PosMap) (p : Nat) (v : String)
    (h : (m.map Prod.fst).Nodup) : ((posMapAdd m p v).map Prod.fst).Nodup := by
  unfold posMapAdd
  cases hg : posGet m p with
  | some w => simpa using h
  | none =>
    have hp := (posGet_eq_none_iff m p).1 hg
    simp only [List.map_append, List.map_cons, List.map_nil]
    rw [List.nodup_append]
    refine ⟨h, by simp, ?_⟩
    intro a ha hb
    simp at hb
    subst hb
    exact hp ha

theorem posGet_posMapAdd (m : PosMap) (p : Nat) (v : String) (q : Nat) :
    posGet (posMapAdd m p v) q =
      (posGet m q).orElse (fun _ => if p = q then some v else none) := by
  unfold posMapAdd
  cases hg : posGet m p with
  | some w =>
    by_cases hpq : p = q
    · subst hpq; simp [hg]
    · simp [hpq]
  | none =>
    simp [posGet_append, posGet]

/-- The loop that fills a slice from a position map, from an arbitrary slice. -/
theorem sliceFold_spec (m : PosMap) (acc : List String)
    (hk : ∀ kv ∈ m, kv.1 < acc.length) (hnd : (m.map Prod.fst).Nodup) :
    ∃ out, m.foldlM (fun acc kv =>
        if kv.1 < acc.length then some (acc.set kv.1 kv.2) else none) acc = some out ∧
      out.length = acc.length ∧
      ∀ p, out[p]? = (posGet m p).orElse (fun _ => acc[p]?) ∨ (acc.length ≤ p ∧ out[p]? = none) := by
  induction m generalizing acc with
  | nil => exact ⟨acc, by simp [posGet]⟩
  | cons kv rest ih =>
    obtain ⟨k, v⟩ := kv
    have hklt : k < acc.length := hk (k, v) (by simp)
    simp only [List.map_cons, List.nodup_cons] at hnd
    obtain ⟨out, h1, h2, h3⟩ := ih (acc.set k v)
      (by intro kv hkv; simpa using hk kv (List.mem_cons_of_mem _ hkv)) hnd.2
    simp only [List.length_set] at h2 h3
    refine ⟨out, ?_, h2, ?_⟩
    · simp [List.foldlM, hklt, h1]
    · intro p
      by_cases hp : p < acc.length
      · left
        rcases h3 p with h | h
        · rw [h]
          by_cases hkp : k = p
          · subst hkp
            have : posGet rest k = none := (posGet_eq_none_iff rest k).2 hnd.1
            simp [posGet, this, hklt]
          · simp [posGet, hkp, List.getElem?_set_ne hkp]
        · omega
      · right
        refine ⟨by omega, ?_⟩
        rw [List.getElem?_eq_none]; omega

theorem sliceOfPosMap_dense (m : PosMap) (n : Nat) (hnd : (m.map Prod.fst).Nodup)
    (hkeys : ∀ p, p ∈ m.map Prod.fst ↔ p < n) :
    ∃ out, sliceOfPosMap m = some out ∧ out.length = n ∧ ∀ p, p < n → out[p]? = posGet m p := by
  have hperm : (m.map Prod.fst).Perm (List.range n) :=
    (List.perm_ext_iff_of_nodup hnd (List.nodup_range n)).2 (fun a => by simp [hkeys])
  have hlen : m.length = n := by simpa using hperm.length_eq
  obtain ⟨out, h1, h2, h3⟩ := sliceFold_spec m (List.replicate m.length "")
    (by
      intro kv hkv
      have : kv.1 ∈ m.map Prod.fst := List.mem_map_of_mem _ hkv
      simpa [hlen] using (hkeys kv.1).1 this) hnd
  refine ⟨out, h1, by simpa [hlen] using h2, ?_⟩
  intro p hp
  have hin : p ∈ m.map Prod.fst := (hkeys p).2 hp
  cases hg : posGet m p with
  | none => exact absurd hin ((posGet_eq_none_iff m p).1 hg)
  | some v =>
    rcases h3 p with h | h
    · rw [h, hg]; rfl
    · simp [hlen] at h; omega

theorem splitChars_ne_nil (sep : Char) (cs : List Char) : splitChars sep cs ≠ [] := by
  induction cs with
  | nil => simp [splitChars]
  | cons c cs ih =>
    unfold splitChars
    split
    · simp
    · split <;> simp

theorem strings_Split_cons (s : String) (sep : Char) :
    ∃ n0 rest, strings_Split s sep = n0 :: rest := by
  unfold strings_Split
  cases h : splitChars sep s.data with
  | nil => exact absurd h (splitChars_ne_nil sep s.data)
  | cons a l => exact ⟨String.mk a, l.map String.mk, rfl⟩

/-- Effect of the loop body of `docToFileIndex` on the two position maps. -/
theorem decodeField_maps (st : DecodeState) (f : Field) (hd : fieldDecodable f = true) :
    ∃ st', decodeField st f = some st' ∧
      st'.refsMap = (if readsAsRefs f then
        posMapAdd st.refsMap (f.arrayPositions.headD 0) f.value else st.refsMap) ∧
      st'.fullRefsMap = (if readsAsFullRefs f then
        posMapAdd st.fullRefsMap (f.arrayPositions.headD 0) f.value else st.fullRefsMap) := by
  unfold fieldDecodable readsAsRefs readsAsFullRefs at hd
  unfold decodeField readsAsRefs readsAsFullRefs
  obtain ⟨n0, rest, hsegs⟩ := strings_Split_cons f.name '.'
  rw [hsegs] at hd ⊢
  obtain ⟨name, value, poss⟩ := f
  simp only at hd ⊢
  by_cases h1 : n0 = "blob"
  · subst h1; simp
  by_cases h2 : n0 = "fullRefs"
  · subst h2
    rcases poss with _ | ⟨pos, poss'⟩
    · simp at hd
    · simp
  by_cases h3 : n0 = "content"
  · subst h3; simp
  by_cases h4 : n0 = "metadata"
  · subst h4
    rcases rest with _ | ⟨n1, rest'⟩
    · simp at hd
    · by_cases g1 : n1 = "organization"
      · subst g1; simp
      by_cases g2 : n1 = "project"
      · subst g2; simp
      by_cases g3 : n1 = "repository"
      · subst g3; simp
      by_cases g4 : n1 = "refs"
      · subst g4
        rcases poss with _ | ⟨pos, poss'⟩
        · simp at hd
        · simp
      by_cases g5 : n1 = "path"
      · subst g5; simp
      by_cases g6 : n1 = "ext"
      · subst g6; simp
      simp [g1, g2, g3, g4, g5, g6]
  simp [h1, h2, h3, h4]

theorem firstValueAt_cons (sel : Field → Bool) (f : Field) (rest : List Field) (p : Nat) :
    firstValueAt sel (f :: rest) p =
      if (sel f && f.arrayPositions[0]? == some p) = true then some f.value
      else firstValueAt sel rest p := by
  unfold firstValueAt
  by_cases h : (sel f && f.arrayPositions[0]? == some p) = true
  · simp [List.find?, h]
  · simp only [Bool.not_eq_true] at h
    simp [List.find?, h]

theorem firstValueAt_isSome (sel : Field → Bool) (fields : List Field) (p : Nat) :
    (firstValueAt sel fields p).isSome = true ↔
      ∃ f ∈ fields, sel f = true ∧ f.arrayPositions[0]? = some p := by
  unfold firstValueAt
  simp [List.find?_isSome]

/-- One step of the first-wins rule on a position map. -/
theorem posGet_addIf (m : PosMap) (sel : Field → Bool) (f : Field) (p : Nat)
    (hpos : sel f = true → (f.arrayPositions[0]?).isSome = true) :
    posGet (if sel f then posMapAdd m (f.arrayPositions.headD 0) f.value else m) p =
      (posGet m p).orElse (fun _ =>
        if (sel f && f.arrayPositions[0]? == some p) = true then some f.value else none) := by
  by_cases hs : sel f = true
  · have := hpos hs
    obtain ⟨name, value, poss⟩ := f
    rcases poss with _ | ⟨pos, poss'⟩
    · simp at this
    · simp only [hs, if_true, posGet_posMapAdd, List.headD_cons, Bool.true_and]
      cases hg : posGet m p <;> simp
  · simp only [Bool.not_eq_true] at hs
    simp only [hs, Bool.false_and]
    cases hg : posGet m p <;> simp [hg]

theorem addIf_keys_nodup (m : PosMap) (b : Bool) (pos : Nat) (v : String)
    (h : (m.map Prod.fst).Nodup) :
    ((if b then posMapAdd m pos v else m).map Prod.fst).Nodup := by
  cases b
  · simpa using h
  · simpa using posMapAdd_keys_nodup m pos v h

/-- The loop of `docToFileIndex`: both position maps hold, per position, the value
of the first field read at that position. -/
theorem decodeFields_spec (fields : List Field) (st : DecodeState)
    (hd : ∀ f ∈ fields, fieldDecodable f = true)
    (hr : (st.refsMap.map Prod.fst).Nodup) (hf : (st.fullRefsMap.map Prod.fst).Nodup) :
    ∃ st', decodeFields st fields = some st' ∧
      (st'.refsMap.map Prod.fst).Nodup ∧ (st'.fullRefsMap.map Prod.fst).Nodup ∧
      (∀ p, posGet st'.refsMap p =
        (posGet st.refsMap p).orElse (fun _ => firstValueAt readsAsRefs fields p)) ∧
      (∀ p, posGet st'.fullRefsMap p =
        (posGet st.fullRefsMap p).orElse (fun _ => firstValueAt readsAsFullRefs fields p)) := by
  induction fields generalizing st with
  | nil =>
    refine ⟨st, rfl, hr, hf, ?_, ?_⟩ <;> intro p <;>
      cases hg : posGet _ p <;> simp [firstValueAt]
  | cons f rest ih =>
    have hdf : fieldDecodable f = true := hd f (by simp)
    obtain ⟨st1, h1, h2, h3⟩ := decodeField_maps st f hdf
    obtain ⟨st', g1, g2, g3, g4, g5⟩ := ih st1
      (fun g hg => hd g (List.mem_cons_of_mem _ hg))
      (by rw [h2]; exact addIf_keys_nodup _ _ _ _ hr)
      (by rw [h3]; exact addIf_keys_nodup _ _ _ _ hf)
    have hposR : readsAsRefs f = true → (f.arrayPositions[0]?).isSome = true := by
      intro h
      unfold fieldDecodable at hdf
      simp [h] at hdf
      exact hdf.2
    have hposF : readsAsFullRefs f = true → (f.arrayPositions[0]?).isSome = true := by
      intro h
      unfold fieldDecodable at hdf
      simp [h] at hdf
      exact hdf.2
    refine ⟨st', ?_, g2, g3, ?_, ?_⟩
    · simp only [decodeFields, List.foldlM] at g1 ⊢
      simp [h1, g1]
    · intro p
      rw [g4 p, h2, posGet_addIf _ _ _ _ hposR, firstValueAt_cons]
      cases hg : posGet st.refsMap p <;> simp
      split <;> simp
    · intro p
      rw [g5 p, h3, posGet_addIf _ _ _ _ hposF, firstValueAt_cons]
      cases hg : posGet st.fullRefsMap p <;> simp
      split <;> simp

/-- C5 (amended): when no field makes the loop body index out of range, and the
array positions of the fields read as refs (segments `metadata`, `refs`) are exactly
`0 .. n-1` and those of the fields read as full refs (segment `fullRefs`) exactly
`0 .. m-1`, `docToFileIndex` succeeds, `refs` has length `n` and `refs[p]` is the
value of the first such field in document order at position `p`; likewise `fullRefs`. -/
theorem docToFileIndex_first_value_per_position (doc : Document) (n m : Nat)
    (hd : ∀ f ∈ doc.fields, fieldDecodable f = true)
    (hrefsIn : ∀ f ∈ doc.fields, readsAsRefs f = true →
      ∃ p, p < n ∧ f.arrayPositions[0]? = some p)
    (hrefsAll : ∀ p, p < n →
      ∃ f ∈ doc.fields, readsAsRefs f = true ∧ f.arrayPositions[0]? = some p)
    (hfullIn : ∀ f ∈ doc.fields, readsAsFullRefs f = true →
      ∃ p, p < m ∧ f.arrayPositions[0]? = some p)
    (hfullAll : ∀ p, p < m →
      ∃ f ∈ doc.fields, readsAsFullRefs f = true ∧ f.arrayPositions[0]? = some p) :
    ∃ fi, docToFileIndex doc = some fi ∧
      fi.metadata.refs.length = n ∧ fi.fullRefs.length = m ∧
      (∀ p, p < n → fi.metadata.refs[p]? = firstValueAt readsAsRefs doc.fields p) ∧
      (∀ p, p < m → fi.fullRefs[p]? = firstValueAt readsAsFullRefs doc.fields p) := by
  obtain ⟨st, h1, h2, h3, h4, h5⟩ := decodeFields_spec doc.fields DecodeState.init hd
    (by simp [DecodeState.init]) (by simp [DecodeState.init])
  have h4' : ∀ p, posGet st.refsMap p = firstValueAt readsAsRefs doc.fields p := by
    intro p; rw [h4 p]; simp [DecodeState.init, posGet]
  have h5' : ∀ p, posGet st.fullRefsMap p = firstValueAt readsAsFullRefs doc.fields p := by
    intro p; rw [h5 p]; simp [DecodeState.init, posGet]
  have keys : ∀ (sel : Field → Bool) (mp : PosMap) (k : Nat),
      (∀ p, posGet mp p = firstValueAt sel doc.fields p) →
      (∀ f ∈ doc.fields, sel f = true → ∃ p, p < k ∧ f.arrayPositions[0]? = some p) →
      (∀ p, p < k → ∃ f ∈ doc.fields, sel f = true ∧ f.arrayPositions[0]? = some p) →
      ∀ p, p ∈ mp.map Prod.fst ↔ p < k := by
    intro sel mp k hget hin hall p
    have e1 : p ∈ mp.map Prod.fst ↔ (firstValueAt sel doc.fields p).isSome = true := by
      rw [← hget p]
      have := posGet_eq_none_iff mp p
      cases hg : posGet mp p with
      | none => simpa [hg] using this
      | some v => simpa [hg] using this
    rw [e1, firstValueAt_isSome]
    constructor
    · rintro ⟨f, hf, hs, hp⟩
      obtain ⟨q, hq, hq2⟩ := hin f hf hs
      rw [hp] at hq2
      cases hq2
      exact hq
    · exact hall p
  obtain ⟨refs, r1, r2, r3⟩ := sliceOfPosMap_dense st.refsMap n h2
    (keys readsAsRefs st.refsMap n h4' hrefsIn hrefsAll)
  obtain ⟨fullRefs, f1, f2, f3⟩ := sliceOfPosMap_dense st.fullRefsMap m h3
    (keys readsAsFullRefs st.fullRefsMap m h5' hfullIn hfullAll)
  refine ⟨{ st.fileIndex with
    fullRefs := fullRefs, metadata := { st.fileIndex.metadata with refs := refs } },
    ?_, ?_, ?_, ?_, ?_⟩
  · unfold docToFileIndex
    rw [h1]
    simp only [decodeFinish, r1, f1]
  · exact r2
  · exact f2
  · intro p hp; rw [← h4' p]; exact r3 p hp
  · intro p hp; rw [← h5' p]; exact f3 p hp

/-- A document with repeated positions, as multi-term analysis leaves them. -/
theorem docToFileIndex_first_value_per_position_witness :
    ∃ fi, docToFileIndex ⟨"id", [⟨"blob", "H", []⟩, ⟨"metadata.refs", "main", [0]⟩,
        ⟨"metadata.refs", "other", [0]⟩, ⟨"fullRefs", "o:p/r:main", [0]⟩,
        ⟨"metadata.refs", "dev", [1]⟩, ⟨"fullRefs", "o:p/r:dev", [1]⟩,
        ⟨"fullRefs", "o:p/r", [1]⟩]⟩ = some fi ∧
      fi.metadata.refs.length = 2 ∧ fi.fullRefs.length = 2 ∧
      (∀ p, p < 2 → fi.metadata.refs[p]? = firstValueAt readsAsRefs
        [⟨"blob", "H", []⟩, ⟨"metadata.refs", "main", [0]⟩,
        ⟨"metadata.refs", "other", [0]⟩, ⟨"fullRefs", "o:p/r:main", [0]⟩,
        ⟨"metadata.refs", "dev", [1]⟩, ⟨"fullRefs", "o:p/r:dev", [1]⟩,
        ⟨"fullRefs", "o:p/r", [1]⟩] p) ∧
      (∀ p, p < 2 → fi.fullRefs[p]? = firstValueAt readsAsFullRefs
        [⟨"blob", "H", []⟩, ⟨"metadata.refs", "main", [0]⟩,
        ⟨"metadata.refs", "other", [0]⟩, ⟨"fullRefs", "o:p/r:main", [0]⟩,
        ⟨"metadata.refs", "dev", [1]⟩, ⟨"fullRefs", "o:p/r:dev", [1]⟩,
        ⟨"fullRefs", "o:p/r", [1]⟩] p) :=
  docToFileIndex_first_value_per_position _ 2 2 (by decide) (by decide) (by decide) (by decide)
    (by decide)

/-- C5: a field named `metadata.refs.raw` is read as a ref, so the refs come out
longer than the positions of the fields named `metadata.refs` say; and a field with
the bare name `metadata` makes the decoder panic. -/
theorem docToFileIndex_refs_not_by_full_name :
    (([⟨"metadata.refs", "main", [0]⟩, ⟨"metadata.refs.raw", "x", [1]⟩] : List Field).filter
      (fun f => f.name = "metadata.refs")).map Field.arrayPositions = [[0]] ∧
    (docToFileIndex ⟨"id", [⟨"metadata.refs", "main", [0]⟩,
      ⟨"metadata.refs.raw", "x", [1]⟩]⟩).map (fun fi => fi.metadata.refs) = some ["main", "x"] ∧
    docToFileIndex ⟨"id", [⟨"metadata.refs", "main", [0]⟩, ⟨"metadata", "x", []⟩]⟩ = none := by
  decide

/-- An unknown field leaves the state of the loop as it is. -/
theorem decodeField_unknown (st : DecodeState) (x : Field)
    (hx : isUnknownFieldName x.name = true) : decodeField st x = some st := by
  unfold isUnknownFieldName at hx
  unfold decodeField
  obtain ⟨n0, rest, hsegs⟩ := strings_Split_cons x.name '.'
  rw [hsegs] at hx ⊢
  simp only [List.getElem?_cons_zero] at hx ⊢
  by_cases h4 : n0 = "metadata"
  · subst h4
    rcases rest with _ | ⟨n1, rest'⟩
    · simp at hx
    · simp at hx
      simp [hx]
  · simp [h4] at hx
    simp [h4, hx]

/-- C7 (amended): a field whose first name segment is none of `blob`, `fullRefs`,
`content`, `metadata`, or whose name starts with `metadata.` followed by a second
segment that is none of `organization`, `project`, `repository`, `refs`, `path`,
`ext`, can be inserted at any place of a document without changing the outcome of
`docToFileIndex`. -/
theorem docToFileIndex_ignores_unknown_field (id : String) (pre post : List Field) (x : Field)
    (hx : isUnknownFieldName x.name = true) :
    docToFileIndex ⟨id, pre ++ x :: post⟩ = docToFileIndex ⟨id, pre ++ post⟩ := by
  unfold docToFileIndex decodeFields
  simp only [List.foldlM_append, List.foldlM_cons]
  cases h : List.foldlM decodeField DecodeState.init pre with
  | none => rfl
  | some st =>
    simp [decodeField_unknown st x hx]

/-- The fields `foo` and `metadata.size` are ignored. -/
theorem docToFileIndex_ignores_unknown_field_witness :
    isUnknownFieldName "metadata.size" = true ∧
    docToFileIndex ⟨"id", [⟨"blob", "H", []⟩] ++ ⟨"metadata.size", "12", []⟩ ::
        [⟨"metadata.refs", "main", [0]⟩]⟩ =
      docToFileIndex ⟨"id", [⟨"blob", "H", []⟩] ++ [⟨"metadata.refs", "main", [0]⟩]⟩ :=
  ⟨by decide, docToFileIndex_ignores_unknown_field "id" _ _ ⟨"metadata.size", "12", []⟩
    (by decide)⟩

/-- C7: the field names `blob.v2` and `metadata` are none of the nine names of a
`FileIndex`, yet a field `blob.v2` replaces the blob and a field `metadata` makes
the decoder panic. -/
theorem docToFileIndex_extra_field_changes_result :
    "blob.v2" ∉ knownFieldNames ∧ "metadata" ∉ knownFieldNames ∧
    (docToFileIndex ⟨"id", [⟨"blob", "H", []⟩]⟩).map FileIndex.blob = some "H" ∧
    (docToFileIndex ⟨"id", [⟨"blob", "H", []⟩, ⟨"blob.v2", "X", []⟩]⟩).map FileIndex.blob =
      some "X" ∧
    docToFileIndex ⟨"id", [⟨"blob", "H", []⟩, ⟨"metadata", "X", []⟩]⟩ = none := by
  decide

theorem posGet_enumFrom (vs : List String) (k p : Nat) :
    posGet (vs.enumFrom k) p = if k ≤ p then vs[p - k]? else none := by
  induction vs generalizing k with
  | nil => simp [posGet]
  | cons v rest ih =>
    simp only [List.enumFrom_cons, posGet, ih]
    by_cases h : k = p
    · subst h; simp
    · by_cases h2 : k ≤ p
      · have : p - k = (p - (k + 1)) + 1 := by omega
        simp [h, h2, this]
        intro h3; omega
      · have : ¬ k + 1 ≤ p := by omega
        simp [h, h2, this]

theorem sliceOfPosMap_enum (vs : List String) : sliceOfPosMap vs.enum = some vs := by
  obtain ⟨out, h1, h2, h3⟩ := sliceOfPosMap_dense vs.enum vs.length
    (by
      have : vs.enum.map Prod.fst = List.range vs.length := by
        simp [List.enum, List.enumFrom_map_fst, List.range_eq_range']
      rw [this]; exact List.nodup_range _)
    (by
      intro p
      have : vs.enum.map Prod.fst = List.range vs.length := by
        simp [List.enum, List.enumFrom_map_fst, List.range_eq_range']
      rw [this]; simp)
  rw [h1]
  congr 1
  apply List.ext_getElem?
  intro p
  by_cases hp : p < vs.length
  · rw [h3 p hp, List.enum, posGet_enumFrom]; simp
  · rw [List.getElem?_eq_none (by omega), List.getElem?_eq_none (by omega)]

theorem filter_arrayFields (name : String) (vs : List String) (h : MAPPING_store name = true) :
    (arrayFields name vs).filter (fun fld => MAPPING_store fld.name) = arrayFields name vs := by
  unfold arrayFields
  rw [List.filter_eq_self]
  intro a ha
  simp only [List.mem_map] at ha
  obtain ⟨iv, _, rfl⟩ := ha
  exact h

/-- The stored fields of an entity, spelled out: every mapped field but `content`. -/
theorem storedFields_eq (f : FileIndex) :
    storedFields f =
      [⟨"blob", f.blob, []⟩] ++ arrayFields "fullRefs" f.fullRefs ++
      [⟨"metadata.organization", f.metadata.organization, []⟩,
       ⟨"metadata.project", f.metadata.project, []⟩,
       ⟨"metadata.repository", f.metadata.repository, []⟩] ++
      arrayFields "metadata.refs" f.metadata.refs ++
      [⟨"metadata.path", f.metadata.path, []⟩, ⟨"metadata.ext", f.metadata.ext, []⟩] := by
  unfold storedFields mappedFields
  simp only [List.filter_append, filter_arrayFields "fullRefs" _ (by decide),
    filter_arrayFields "metadata.refs" _ (by decide)]
  have e1 : MAPPING_store "blob" = true := by decide
  have e2 : MAPPING_store "content" = false := by decide
  have e3 : MAPPING_store "metadata.organization" = true := by decide
  have e4 : MAPPING_store "metadata.project" = true := by decide
  have e5 : MAPPING_store "metadata.repository" = true := by decide
  have e6 : MAPPING_store "metadata.path" = true := by decide
  have e7 : MAPPING_store "metadata.ext" = true := by decide
  simp [List.filter, e1, e2, e3, e4, e5, e6, e7]

theorem decodeFields_append (st : DecodeState) (l₁ l₂ : List Field) :
    decodeFields st (l₁ ++ l₂) = (decodeFields st l₁).bind (fun st1 => decodeFields st1 l₂) := by
  unfold decodeFields
  rw [List.foldlM_append]
  rfl

theorem decodeFields_fullRefs (vs : List String) (st : DecodeState) (k : Nat)
    (hfresh : ∀ p, k ≤ p → posGet st.fullRefsMap p = none) :
    decodeFields st ((vs.enumFrom k).map (fun iv => (⟨"fullRefs", iv.2, [iv.1]⟩ : Field))) =
      some { st with fullRefsMap := st.fullRefsMap ++ vs.enumFrom k } := by
  induction vs generalizing st k with
  | nil => simp [decodeFields]
  | cons v rest ih =>
    have hs : strings_Split "fullRefs" '.' = ["fullRefs"] := by decide
    have step : decodeField st ⟨"fullRefs", v, [k]⟩ =
        some { st with fullRefsMap := st.fullRefsMap ++ [(k, v)] } := by
      simp [decodeField, hs, posMapAdd, hfresh k (le_refl k)]
    simp only [List.enumFrom_cons, List.map_cons, decodeFields, List.foldlM_cons, step]
    have := ih { st with fullRefsMap := st.fullRefsMap ++ [(k, v)] } (k + 1) (by
      intro p hp
      have : ¬ k = p := by omega
      simp [posGet_append, hfresh p (by omega), posGet, this])
    simp only [decodeFields] at this
    simp [this]

theorem decodeFields_refs (vs : List String) (st : DecodeState) (k : Nat)
    (hfresh : ∀ p, k ≤ p → posGet st.refsMap p = none) :
    decodeFields st ((vs.enumFrom k).map (fun iv => (⟨"metadata.refs", iv.2, [iv.1]⟩ : Field))) =
      some { st with refsMap := st.refsMap ++ vs.enumFrom k } := by
  induction vs generalizing st k with
  | nil => simp [decodeFields]
  | cons v rest ih =>
    have hs : strings_Split "metadata.refs" '.' = ["metadata", "refs"] := by decide
    have step : decodeField st ⟨"metadata.refs", v, [k]⟩ =
        some { st with refsMap := st.refsMap ++ [(k, v)] } := by
      simp [decodeField, hs, posMapAdd, hfresh k (le_refl k)]
    simp only [List.enumFrom_cons, List.map_cons, decodeFields, List.foldlM_cons, step]
    have := ih { st with refsMap := st.refsMap ++ [(k, v)] } (k + 1) (by
      intro p hp
      have : ¬ k = p := by omega
      simp [posGet_append, hfresh p (by omega), posGet, this])
    simp only [decodeFields] at this
    simp [this]

/-- Decoding the fields stored for an entity gives the entity with empty content. -/
theorem decode_storedFields (id : String) (f : FileIndex) :
    docToFileIndex ⟨id, storedFields f⟩ = some { f with content := "" } := by
  have s1 : strings_Split "blob" '.' = ["blob"] := by decide
  have s2 : strings_Split "metadata.organization" '.' = ["metadata", "organization"] := by decide
  have s3 : strings_Split "metadata.project" '.' = ["metadata", "project"] := by decide
  have s4 : strings_Split "metadata.repository" '.' = ["metadata", "repository"] := by decide
  have s5 : strings_Split "metadata.path" '.' = ["metadata", "path"] := by decide
  have s6 : strings_Split "metadata.ext" '.' = ["metadata", "ext"] := by decide
  unfold docToFileIndex
  rw [storedFields_eq]
  simp only [decodeFields_append, arrayFields, List.enum]
  have b1 : ∀ st : DecodeState, decodeFields st [⟨"blob", f.blob, []⟩] =
      some { st with fileIndex := { st.fileIndex with blob := f.blob } } := by
    intro st; simp [decodeFields, decodeField, s1]
  rw [b1]
  simp only [Option.bind_eq_bind, Option.some_bind]
  rw [decodeFields_fullRefs _ _ 0 (by intro p _; simp [DecodeState.init, posGet])]
  simp only [Option.some_bind]
  have b2 : ∀ st : DecodeState, decodeFields st
      [⟨"metadata.organization", f.metadata.organization, []⟩,
       ⟨"metadata.project", f.metadata.project, []⟩,
       ⟨"metadata.repository", f.metadata.repository, []⟩] =
      some { st with fileIndex := { st.fileIndex with metadata :=
        { st.fileIndex.metadata with organization := f.metadata.organization
                                     project := f.metadata.project
                                     repository := f.metadata.repository } } } := by
    intro st; simp [decodeFields, decodeField, s2, s3, s4]
  rw [b2]
  simp only [Option.some_bind]
  rw [decodeFields_refs _ _ 0 (by intro p _; simp [DecodeState.init, posGet])]
  simp only [Option.some_bind]
  have b3 : ∀ st : DecodeState, decodeFields st
      [⟨"metadata.path", f.metadata.path, []⟩, ⟨"metadata.ext", f.metadata.ext, []⟩] =
      some { st with fileIndex := { st.fileIndex with metadata :=
        { st.fileIndex.metadata with path := f.metadata.path, ext := f.metadata.ext } } } := by
    intro st; simp [decodeFields, decodeField, s5, s6]
  rw [b3]
  have e1 := sliceOfPosMap_enum f.fullRefs
  have e2 := sliceOfPosMap_enum f.metadata.refs
  simp only [List.enum] at e1 e2
  simp [decodeFinish, DecodeState.init, FileIndex.zero, e1, e2]

/-- C6 (amended): for every entity `f`, decoding the fields that the backend keeps
for `f` under `MAPPING` succeeds and gives `f` back in `blob`, `fullRefs` and the
whole `metadata` (organization, project, repository, refs in order, path, ext); the
`content`, which is not stored, comes back empty. -/
theorem docToFileIndex_roundtrip_but_content (id : String) (f : FileIndex) :
    ∃ g, docToFileIndex ⟨id, storedFields f⟩ = some g ∧
      g.blob = f.blob ∧ g.fullRefs = f.fullRefs ∧ g.metadata = f.metadata ∧ g.content = "" :=
  ⟨{ f with content := "" }, decode_storedFields id f, rfl, rfl, rfl, rfl⟩

/-- C6: the valid entity `readmeMain` has the content `hello world`, but the document
stored for it under `MAPPING` decodes to an entity with empty content. -/
theorem docToFileIndex_storedFields_loses_content :
    isValidFileIndex sampleHelpers readmeMain = true ∧
    docToFileIndex ⟨"id", storedFields readmeMain⟩ = some { readmeMain with content := "" } ∧
    docToFileIndex ⟨"id", storedFields readmeMain⟩ ≠ some readmeMain := by
  decide

/-! ## Upsert -/

theorem getDoc_putDoc (docs : List (String × FileIndex)) (id : String) (f : FileIndex) :
    getDoc (putDoc docs id f) id = some f := by
  induction docs with
  | nil => simp [putDoc, getDoc]
  | cons kv rest ih =>
    obtain ⟨k, g⟩ := kv
    by_cases h : k = id
    · simp [putDoc, getDoc, h]
    · simp [putDoc, getDoc, h, ih]

theorem getDoc_mem (docs : List (String × FileIndex)) (id : String) (g : FileIndex)
    (h : getDoc docs id = some g) : (id, g) ∈ docs := by
  induction docs with
  | nil => simp [getDoc] at h
  | cons kv rest ih =>
    obtain ⟨k, g'⟩ := kv
    by_cases hk : k = id
    · simp [getDoc, hk] at h
      subst h; subst hk; simp
    · simp [getDoc, hk] at h
      exact List.mem_cons_of_mem _ (ih h)

theorem mem_mergeRefs_left (incoming existing : List String) (r : String) (h : r ∈ existing) :
    r ∈ mergeRefs existing incoming := by
  unfold mergeRefs
  induction incoming generalizing existing with
  | nil => simpa using h
  | cons a rest ih =>
    simp only [List.foldl_cons]
    apply ih
    split
    · exact h
    · simp [h]

theorem mem_mergeRefs_right (incoming existing : List String) (r : String) (h : r ∈ incoming) :
    r ∈ mergeRefs existing incoming := by
  unfold mergeRefs
  induction incoming generalizing existing with
  | nil => simp at h
  | cons a rest ih =>
    simp only [List.foldl_cons]
    rcases List.mem_cons.1 h with rfl | h'
    · have := mem_mergeRefs_left rest (if r ∈ existing then existing else existing ++ [r]) r
        (by split <;> simp [*])
      simpa [mergeRefs] using this
    · exact ih _ h'

theorem getDocId_fillFileIndex (H : Helpers) (f : FileIndex) :
    getDocId H (fillFileIndex H f) = getDocId H f := rfl

theorem getDocId_mergeRef (H : Helpers) (f : FileIndex) (refs : List String) :
    getDocId H (mergeRef f refs).1 = getDocId H f := rfl

theorem mergeRef_same_iff (g : FileIndex) (refs : List String) :
    (mergeRef g refs).2 = true ↔ ∀ r ∈ refs, r ∈ g.metadata.refs := by
  simp [mergeRef, List.all_eq_true]

/-- A second upsert of the same request right after a write of the merged entity
under the request's id is skipped. -/
theorem upsert_after_write (H : Helpers) (c : Client) (f g : FileIndex)
    (hrefs : ∀ r ∈ f.metadata.refs, r ∈ g.metadata.refs) :
    upsert H (c.Index (getDocId H f) g) none f =
      some ⟨c.Index (getDocId H f) g, none, none⟩ := by
  unfold upsert
  simp only [getDocId_fillFileIndex, Client.Document, Client.Index, getDoc_putDoc, Option.map_some',
    decode_storedFields]
  have : (mergeRef { g with content := "" } (fillFileIndex H f).metadata.refs).2 = true := by
    rw [mergeRef_same_iff]
    exact hrefs
  simp [this]

/-- C8 (amended): on an index whose documents are stored under their own ids, two
calls of `UpsertFileIndex(f)` in a row both return; the second call finds the
document, is skipped and leaves the backend, write counter included, as the first
call left it.  The first call writes once when the document was absent or lacked a
ref of `f`, and not at all when the document already carried every ref of `f`: the
two calls issue at most one backend write in total. -/
theorem UpsertFileIndex_twice (H : Helpers) (c : Client) (f : FileIndex) (hwf : IdsAgree H c) :
    ∃ out1 out2, UpsertFileIndex H c f = some out1 ∧
      UpsertFileIndex H out1.client f = some out2 ∧
      out2.client = out1.client ∧ out2.err = none ∧
      (((∃ g, getDoc c.docs (getDocId H f) = some g ∧
            ∀ r ∈ f.metadata.refs, r ∈ g.metadata.refs) ∧ out1.client = c) ∨
       ((¬ ∃ g, getDoc c.docs (getDocId H f) = some g ∧
            ∀ r ∈ f.metadata.refs, r ∈ g.metadata.refs) ∧
          out1.client.writes = c.writes + 1)) := by
  unfold UpsertFileIndex
  cases hdoc : getDoc c.docs (getDocId H f) with
  | none =>
    have h1 : upsert H c none f =
        some ⟨c.Index (getDocId H f) (fillFileIndex H (fillFileIndex H f)), none, none⟩ := by
      unfold upsert
      simp [getDocId_fillFileIndex, Client.Document, hdoc, create, _index]
    refine ⟨_, _, h1, upsert_after_write H c f _ (by intro r hr; exact hr), rfl, rfl, ?_⟩
    right
    exact ⟨by simp, by simp [Client.Index]⟩
  | some g =>
    by_cases hsame : ∀ r ∈ f.metadata.refs, r ∈ g.metadata.refs
    · have h1 : upsert H c none f = some ⟨c, none, none⟩ := by
        unfold upsert
        simp only [getDocId_fillFileIndex, Client.Document, hdoc, Option.map_some',
          decode_storedFields]
        have : (mergeRef { g with content := "" } (fillFileIndex H f).metadata.refs).2 = true := by
          rw [mergeRef_same_iff]; exact hsame
        simp [this]
      refine ⟨_, _, h1, h1, rfl, rfl, ?_⟩
      left
      exact ⟨⟨g, rfl, hsame⟩, rfl⟩
    · have hid : getDocId H g = getDocId H f := hwf _ (getDoc_mem _ _ _ hdoc)
      have h1 : upsert H c none f = some ⟨c.Index (getDocId H f)
          (mergeRef { g with content := "" } f.metadata.refs).1, none, none⟩ := by
        unfold upsert
        simp only [getDocId_fillFileIndex, Client.Document, hdoc, Option.map_some',
          decode_storedFields]
        have : ¬ (mergeRef { g with content := "" } (fillFileIndex H f).metadata.refs).2 = true := by
          rw [mergeRef_same_iff]; exact hsame
        simp only [this, if_false, _index]
        have e : getDocId H (mergeRef { g with content := "" }
            (fillFileIndex H f).metadata.refs).1 = getDocId H f := by
          rw [getDocId_mergeRef]; exact hid
        rw [e]
        rfl
      refine ⟨_, _, h1, upsert_after_write H c f _ ?_, rfl, rfl, ?_⟩
      · intro r hr
        exact mem_mergeRefs_right _ _ r hr
      · right
        refine ⟨?_, by simp [Client.Index]⟩
        rintro ⟨g', hg', hall⟩
        cases hg'
        exact hsame hall

/-- A second ref for an indexed file: the first upsert writes once, the second is skipped. -/
theorem UpsertFileIndex_twice_witness :
    IdsAgree sampleHelpers readmeClient ∧
    ∃ out1 out2, UpsertFileIndex sampleHelpers readmeClient readmeDev = some out1 ∧
      UpsertFileIndex sampleHelpers out1.client readmeDev = some out2 ∧
      out2.client = out1.client ∧ out2.err = none ∧
      (((∃ g, getDoc readmeClient.docs (getDocId sampleHelpers readmeDev) = some g ∧
            ∀ r ∈ readmeDev.metadata.refs, r ∈ g.metadata.refs) ∧ out1.client = readmeClient) ∨
       ((¬ ∃ g, getDoc readmeClient.docs (getDocId sampleHelpers readmeDev) = some g ∧
            ∀ r ∈ readmeDev.metadata.refs, r ∈ g.metadata.refs) ∧
          out1.client.writes = readmeClient.writes + 1)) :=
  have h : IdsAgree sampleHelpers readmeClient := by
    intro kv hkv
    simp only [readmeClient, List.mem_singleton] at hkv
    subst hkv
    rfl
  ⟨h, UpsertFileIndex_twice sampleHelpers readmeClient readmeDev h⟩

/-- C8: when the index already holds the document with every ref of the request,
here `readmeMain` upserted over itself, the first call is skipped as well and the
two calls issue no backend write at all. -/
theorem UpsertFileIndex_twice_no_write :
    isValidFileIndex sampleHelpers readmeMain = true ∧
    UpsertFileIndex sampleHelpers readmeClient readmeMain = some ⟨readmeClient, none, none⟩ ∧
    ((UpsertFileIndex sampleHelpers readmeClient readmeMain).bind
      (fun out => UpsertFileIndex sampleHelpers out.client readmeMain)).map
        (fun out => out.client.writes) = some readmeClient.writes := by
  decide

/-! ## Facet tree: the linking loops -/

theorem mapGet_isSome_of_mem {α : Type} (m : GoMap α) (k : String)
    (h : k ∈ m.map Prod.fst) : ∃ v, mapGet m k = some v := by
  induction m with
  | nil => simp at h
  | cons kv rest ih =>
    obtain ⟨k', v'⟩ := kv
    by_cases hk : k' = k
    · exact ⟨v', by simp [mapGet, hk]⟩
    · have : k ∈ rest.map Prod.fst := by
        simp only [List.map_cons, List.mem_cons] at h
        rcases h with h | h
        · exact absurd h.symm hk
        · exact h
      obtain ⟨v, hv⟩ := ih this
      exact ⟨v, by simp [mapGet, hk, hv]⟩

/-- Writing back a changed copy of the entry found under `k` changes that entry only. -/
theorem mapSet_of_mapGet {α : Type} (m : GoMap α) (k : String) (p : α) (g : α → α)
    (hget : mapGet m k = some p) (hnd : (m.map Prod.fst).Nodup) :
    mapSet m k (g p) = m.map (fun kv => if kv.1 = k then (kv.1, g kv.2) else kv) := by
  induction m with
  | nil => simp [mapGet] at hget
  | cons kv rest ih =>
    obtain ⟨k', v'⟩ := kv
    simp only [List.map_cons, List.nodup_cons] at hnd
    by_cases hk : k' = k
    · subst hk
      simp only [mapGet, if_true] at hget
      cases hget
      simp only [mapSet, if_true, List.map_cons]
      congr 1
      symm
      conv_rhs => rw [← List.map_id rest]
      apply List.map_congr_left
      intro kv hkv
      have : kv.1 ≠ k' := by
        intro e
        exact hnd.1 (e ▸ List.mem_map_of_mem Prod.fst hkv)
      simp [this]
    · simp only [mapGet, hk, if_false] at hget
      simp [mapSet, hk, ih hget hnd.2]

theorem map_keys_modify {α : Type} (m : GoMap α) (F : String × α → String × α)
    (hF : ∀ kv, (F kv).1 = kv.1) : (m.map F).map Prod.fst = m.map Prod.fst := by
  simp [List.map_map, Function.comp_def, hF]

/-- The children of the parent `k` among the visited child entries. -/
theorem linkChildren_eq {P C : Type} (parentKey : String → Option String) (addChild : P → C → P)
    (children : List (String × C)) (parents : GoMap P)
    (hnd : (parents.map Prod.fst).Nodup)
    (hpar : ∀ kc ∈ children, ∃ pk, parentKey kc.1 = some pk ∧ pk ∈ parents.map Prod.fst) :
    linkChildren parentKey addChild parents children =
      some (parents.map (fun kp =>
        (kp.1, ((children.filter (fun kc => parentKey kc.1 == some kp.1)).map Prod.snd).foldl
          addChild kp.2))) := by
  induction children generalizing parents with
  | nil => simp [linkChildren]
  | cons kc rest ih =>
    obtain ⟨pk, hpk, hmem⟩ := hpar kc (by simp)
    obtain ⟨p, hp⟩ := mapGet_isSome_of_mem parents pk hmem
    have hset := mapSet_of_mapGet parents pk p (fun q => addChild q kc.2) hp hnd
    have hkeys : (mapSet parents pk (addChild p kc.2)).map Prod.fst = parents.map Prod.fst := by
      rw [hset]
      apply map_keys_modify
      intro kv; split <;> rfl
    have hrec := ih (mapSet parents pk (addChild p kc.2)) (by rw [hkeys]; exact hnd)
      (by
        intro kc' hkc'
        rw [hkeys]
        exact hpar kc' (List.mem_cons_of_mem _ hkc'))
    unfold linkChildren at hrec ⊢
    simp only [List.foldlM_cons, hpk, hp]
    simp only [Option.bind_eq_bind, Option.some_bind]
    rw [hrec, hset]
    simp only [List.map_map, Option.some.injEq]
    apply List.map_congr_left
    intro kv _
    simp only [Function.comp_apply, List.filter_cons, hpk]
    by_cases hk : kv.1 = pk
    · simp [hk]
    · have : ¬ pk = kv.1 := fun e => hk e.symm
      simp [hk, this]

theorem mapSet_fresh {α : Type} (m : GoMap α) (k : String) (v : α)
    (h : k ∉ m.map Prod.fst) : mapSet m k v = m ++ [(k, v)] := by
  induction m with
  | nil => rfl
  | cons kv rest ih =>
    obtain ⟨k', v'⟩ := kv
    simp only [List.map_cons, List.mem_cons, not_or] at h
    have : ¬ k' = k := fun e => h.1 e.symm
    simp [mapSet, this, ih h.2]

/-- Filling one map from terms that are pairwise different and not yet in the map
appends one entry per selected term, in the order of the list. -/
theorem bucket_fold {α : Type} (sel : TermFacet → Bool) (mk : TermFacet → α)
    (terms : List TermFacet) (m0 : GoMap α)
    (hnd : (terms.map TermFacet.term).Nodup)
    (hdisj : ∀ t ∈ terms, t.term ∉ m0.map Prod.fst) :
    terms.foldl (fun m t => if sel t then mapSet m t.term (mk t) else m) m0 =
      m0 ++ terms.filterMap (fun t => if sel t then some (t.term, mk t) else none) := by
  induction terms generalizing m0 with
  | nil => simp
  | cons t rest ih =>
    simp only [List.map_cons, List.nodup_cons] at hnd
    simp only [List.foldl_cons]
    by_cases hs : sel t = true
    · simp only [hs, if_true]
      rw [mapSet_fresh m0 t.term (mk t) (hdisj t (by simp))]
      rw [ih _ hnd.2]
      · simp [List.filterMap_cons, hs]
      · intro u hu
        simp only [List.map_append, List.map_cons, List.map_nil, List.mem_append,
          List.mem_singleton, not_or]
        refine ⟨hdisj u (List.mem_cons_of_mem _ hu), ?_⟩
        intro e
        exact hnd.1 (e ▸ List.mem_map_of_mem TermFacet.term hu)
    · simp only [Bool.not_eq_true] at hs
      simp only [hs, Bool.false_eq_true, if_false]
      rw [ih _ hnd.2 (fun u hu => hdisj u (List.mem_cons_of_mem _ hu))]
      simp [List.filterMap_cons, hs]

theorem bucket_organizationsMap (terms : List TermFacet) (ms : FacetMaps) :
    (terms.foldl bucketTerm ms).organizationsMap =
      terms.foldl (fun m t => if (isOrganization t.term).1 then
        mapSet m t.term ⟨(isOrganization t.term).2, t.count, []⟩ else m) ms.organizationsMap := by
  induction terms generalizing ms with
  | nil => rfl
  | cons t rest ih => simp only [List.foldl_cons, ih]; rfl

theorem bucket_projectsMap (terms : List TermFacet) (ms : FacetMaps) :
    (terms.foldl bucketTerm ms).projectsMap =
      terms.foldl (fun m t => if (isProject t.term).1 then
        mapSet m t.term ⟨(isProject t.term).2, t.count, []⟩ else m) ms.projectsMap := by
  induction terms generalizing ms with
  | nil => rfl
  | cons t rest ih => simp only [List.foldl_cons, ih]; rfl

theorem bucket_repositoriesMap (terms : List TermFacet) (ms : FacetMaps) :
    (terms.foldl bucketTerm ms).repositoriesMap =
      terms.foldl (fun m t => if (isRepository t.term).1 then
        mapSet m t.term ⟨(isRepository t.term).2, t.count, []⟩ else m) ms.repositoriesMap := by
  induction terms generalizing ms with
  | nil => rfl
  | cons t rest ih => simp only [List.foldl_cons, ih]; rfl

theorem bucket_refsMap (terms : List TermFacet) (ms : FacetMaps) :
    (terms.foldl bucketTerm ms).refsMap =
      terms.foldl (fun m t => if (isRef t.term).1 then
        mapSet m t.term ⟨(isRef t.term).2, t.count⟩ else m) ms.refsMap := by
  induction terms generalizing ms with
  | nil => rfl
  | cons t rest ih => simp only [List.foldl_cons, ih]; rfl

/-- The entries of one level: the selected terms, keyed by their full term. -/
theorem bucket_keys {α : Type} (sel : TermFacet → Bool) (mk : TermFacet → α)
    (terms : List TermFacet) :
    (terms.filterMap (fun t => if sel t then some (t.term, mk t) else none)).map Prod.fst =
      (terms.filter sel).map TermFacet.term := by
  induction terms with
  | nil => rfl
  | cons t rest ih =>
    by_cases hs : sel t = true
    · simp [List.filterMap_cons, List.filter_cons, hs, ih]
    · simp [List.filterMap_cons, List.filter_cons, hs, ih]

theorem bucket_keys_nodup {α : Type} (sel : TermFacet → Bool) (mk : TermFacet → α)
    (terms : List TermFacet) (hnd : (terms.map TermFacet.term).Nodup) :
    ((terms.filterMap (fun t => if sel t then some (t.term, mk t) else none)).map
      Prod.fst).Nodup := by
  rw [bucket_keys]
  exact (List.filter_sublist terms).map TermFacet.term |>.nodup hnd

/-- Visiting a map with pairwise different keys, in any valid order, visits a
permutation of its entries. -/
theorem rangeOver_perm {α : Type} (ord : List String → List String)
    (hord : ∀ ks, (ord ks).Perm ks) (m : GoMap α) (hnd : (m.map Prod.fst).Nodup) :
    (rangeOver ord m).Perm m := by
  unfold rangeOver
  have h1 := (hord (m.map Prod.fst)).filterMap (fun k => (mapGet m k).map (fun v => (k, v)))
  refine h1.trans ?_
  have : (m.map Prod.fst).filterMap (fun k => (mapGet m k).map (fun v => (k, v))) = m := by
    clear h1
    induction m with
    | nil => rfl
    | cons kv rest ih =>
      obtain ⟨k, v⟩ := kv
      simp only [List.map_cons, List.nodup_cons] at hnd
      have e : ∀ k' ∈ rest.map Prod.fst,
          (mapGet ((k, v) :: rest) k').map (fun v => (k', v)) =
            (mapGet rest k').map (fun v => (k', v)) := by
        intro k' hk'
        have : ¬ k = k' := fun e => hnd.1 (e ▸ hk')
        simp [mapGet, this]
      have e2 := List.filterMap_congr e
      simp only [List.map_cons, List.filterMap_cons, mapGet, if_true, Option.map_some']
      congr 1
      exact e2.trans (ih hnd.2)
  rw [this]

theorem mem_bucket {α : Type} (sel : TermFacet → Bool) (mk : TermFacet → α)
    (terms : List TermFacet) (kv : String × α)
    (h : kv ∈ terms.filterMap (fun t => if sel t then some (t.term, mk t) else none)) :
    ∃ t ∈ terms, sel t = true ∧ kv = (t.term, mk t) := by
  simp only [List.mem_filterMap] at h
  obtain ⟨t, ht, h2⟩ := h
  by_cases hs : sel t = true
  · simp only [hs, if_true, Option.some.injEq] at h2
    exact ⟨t, ht, hs, h2.symm⟩
  · simp [hs] at h2

/-- The children that a level of the bucketed terms hands to the parent `key`. -/
theorem bucket_children {α : Type} (sel : TermFacet → Bool) (mk : TermFacet → α)
    (parentKey : String → Option String) (terms : List TermFacet) (key : String) :
    ((terms.filterMap (fun t => if sel t then some (t.term, mk t) else none)).filter
      (fun kc => parentKey kc.1 == some key)).map Prod.snd =
    terms.filterMap (fun t =>
      if sel t && parentKey t.term == some key then some (mk t) else none) := by
  induction terms with
  | nil => rfl
  | cons t rest ih =>
    by_cases hs : sel t = true
    · by_cases hp : parentKey t.term = some key
      · simp [List.filterMap_cons, List.filter_cons, hs, hp, ih]
      · simp [List.filterMap_cons, List.filter_cons, hs, hp, ih]
    · simp [List.filterMap_cons, hs, ih]

/-- One linking loop on bucketed parents: the parents keep their place and each
receives the visited children whose parent key is its term. -/
theorem link_level {P C : Type} (parentKey : String → Option String) (addChild : P → C → P)
    (selP : TermFacet → Bool) (mkP : TermFacet → P) (terms : List TermFacet)
    (children : List (String × C))
    (hndT : (terms.map TermFacet.term).Nodup)
    (hpar : ∀ kc ∈ children, ∃ u ∈ terms, selP u = true ∧ parentKey kc.1 = some u.term) :
    linkChildren parentKey addChild
        (terms.filterMap (fun t => if selP t then some (t.term, mkP t) else none)) children =
      some (terms.filterMap (fun t => if selP t then some (t.term,
        ((children.filter (fun kc => parentKey kc.1 == some t.term)).map Prod.snd).foldl
          addChild (mkP t)) else none)) := by
  rw [linkChildren_eq parentKey addChild children _ (bucket_keys_nodup selP mkP terms hndT)]
  · congr 1
    clear hndT hpar
    induction terms with
    | nil => rfl
    | cons t rest ih =>
      by_cases hs : selP t = true
      · simp [List.filterMap_cons, hs, ih]
      · simp [List.filterMap_cons, hs, ih]
  · intro kc hkc
    obtain ⟨u, hu, hs, hp⟩ := hpar kc hkc
    refine ⟨u.term, hp, ?_⟩
    rw [bucket_keys]
    exact List.mem_map_of_mem TermFacet.term (List.mem_filter.2 ⟨hu, hs⟩)

theorem forall₂_filterMap_same {α β γ : Type} (R : β → γ → Prop) (cond : α → Bool)
    (f : α → β) (g : α → γ) (l : List α) (h : ∀ a ∈ l, cond a = true → R (f a) (g a)) :
    List.Forall₂ R (l.filterMap (fun a => if cond a then some (f a) else none))
      (l.filterMap (fun a => if cond a then some (g a) else none)) := by
  induction l with
  | nil => exact List.Forall₂.nil
  | cons a rest ih =>
    have ih' := ih (fun b hb => h b (List.mem_cons_of_mem _ hb))
    by_cases hc : cond a = true
    · simp only [List.filterMap_cons, hc, if_true]
      exact List.Forall₂.cons (h a (by simp) hc) ih'
    · simp only [Bool.not_eq_true] at hc
      simpa [List.filterMap_cons, hc] using ih'

theorem foldl_addRef (cs : List RefFacet) (p : RepositoryFacet) :
    cs.foldl (fun (p : RepositoryFacet) (c : RefFacet) => { p with refs := p.refs ++ [c] }) p =
      { p with refs := p.refs ++ cs } := by
  induction cs generalizing p with
  | nil => simp
  | cons c rest ih => simp [ih]

theorem foldl_addRepository (cs : List RepositoryFacet) (p : ProjectFacet) :
    cs.foldl (fun (p : ProjectFacet) (c : RepositoryFacet) =>
      { p with repositories := p.repositories ++ [c] }) p =
      { p with repositories := p.repositories ++ cs } := by
  induction cs generalizing p with
  | nil => simp
  | cons c rest ih => simp [ih]

theorem foldl_addProject (cs : List ProjectFacet) (p : OrganizationFacet) :
    cs.foldl (fun (p : OrganizationFacet) (c : ProjectFacet) =>
      { p with projects := p.projects ++ [c] }) p =
      { p with projects := p.projects ++ cs } := by
  induction cs generalizing p with
  | nil => simp
  | cons c rest ih => simp [ih]

/-! ## Facet tree: the levels of the table and the classifiers -/

theorem strings_Count_eq_zero (s : String) (c : Char) :
    (strings_Count s c == 0) = !strings_Contains s c := by
  unfold strings_Count strings_Contains
  by_cases h : c ∈ s.data
  · have : List.count c s.data ≠ 0 := by
      rw [Ne, List.count_eq_zero]; exact fun hn => hn h
    simp [h, this]
  · have : List.count c s.data = 0 := List.count_eq_zero.2 h
    simp [h, this]

/-- The classifier `isOrganization` accepts the Organization terms of the table. -/
theorem level_organization (term : String) :
    (levelByTable term == some Level.organization) = (isOrganization term).1 := by
  unfold levelByTable isOrganization
  rw [strings_Count_eq_zero]
  by_cases h0 : strings_Contains term ':' = true
  · have hc : (strings_Count term ':' == 0) = false := by
      rw [strings_Count_eq_zero]; simp [h0]
    simp only [h0, Bool.not_true, Bool.false_eq_true, if_false]
    split <;> first | rfl | (split <;> first | rfl | (split <;> rfl))
  · simp only [Bool.not_eq_true] at h0
    simp [h0]

/-- The classifier `isRepository` accepts the Repository terms of the table. -/
theorem level_repository (term : String) :
    (levelByTable term == some Level.repository) = (isRepository term).1 := by
  unfold levelByTable isRepository
  by_cases h0 : strings_Count term ':' = 0
  · simp [h0]
  by_cases h1 : strings_Count term ':' = 1
  · cases hb : strings_Contains term '/' <;> simp [h1, hb]
  by_cases h2 : strings_Count term ':' = 2
  · cases hb : strings_Contains term '/' <;> simp [h2, hb]
  · simp [h0, h1, h2]

/-- The classifier `isRef` accepts the Ref terms of the table. -/
theorem level_ref (term : String) :
    (levelByTable term == some Level.ref) = (isRef term).1 := by
  unfold levelByTable isRef
  by_cases h0 : strings_Count term ':' = 0
  · simp [h0]
  by_cases h1 : strings_Count term ':' = 1
  · cases hb : strings_Contains term '/' <;> simp [h1, hb]
  by_cases h2 : strings_Count term ':' = 2
  · cases hb : strings_Contains term '/' <;> simp [h2, hb]
  · simp [h0, h1, h2]

/-- A Project term of the table is accepted by `isProject`. -/
theorem isProject_of_level (term : String)
    (h : (levelByTable term == some Level.project) = true) : (isProject term).1 = true := by
  unfold levelByTable at h
  unfold isProject
  by_cases h0 : strings_Count term ':' = 0
  · simp [h0] at h
  by_cases h1 : strings_Count term ':' = 1
  · have hc : strings_Contains term ':' = true := by
      have := strings_Count_eq_zero term ':'
      rw [h1] at this
      simpa using this.symm
    cases hb : strings_Contains term '/' <;> simp [h1, hb, hc] at h ⊢
  by_cases h2 : strings_Count term ':' = 2
  · cases hb : strings_Contains term '/' <;> simp [h2, hb] at h
  · simp [h0, h1, h2] at h

/-- On a list without a term of several `:` and no `/`, `isProject` accepts exactly
the Project terms of the table. -/
theorem level_project (terms : List TermFacet) (hp : projectsByTable terms = true)
    (t : TermFacet) (ht : t ∈ terms) :
    (levelByTable t.term == some Level.project) = (isProject t.term).1 := by
  unfold projectsByTable at hp
  rw [List.all_eq_true] at hp
  have h1 := hp t ht
  cases hc : (isProject t.term).1
  · cases hl : (levelByTable t.term == some Level.project)
    · rfl
    · rw [isProject_of_level t.term hl] at hc
      cases hc
  · simpa [hc] using h1

theorem name_organization (term : String) :
    (isOrganization term).2 = if (isOrganization term).1 then
      specShortName Level.organization term else "" := by
  unfold isOrganization specShortName
  split <;> simp_all

theorem name_project (term : String) :
    (isProject term).2 = if (isProject term).1 then specShortName Level.project term else "" := by
  unfold isProject specShortName
  split <;> simp_all

theorem name_repository (term : String) :
    (isRepository term).2 = if (isRepository term).1 then
      specShortName Level.repository term else "" := by
  unfold isRepository specShortName
  split <;> simp_all

theorem name_ref (term : String) :
    (isRef term).2 = if (isRef term).1 then specShortName Level.ref term else "" := by
  unfold isRef specShortName
  split <;> simp_all
theorem specRefs_eq (terms : List TermFacet) (key : String) :
    specRefs terms key = terms.filterMap (fun t =>
      if (isRef t.term).1 && refParentKey t.term == some key then
        some ⟨(isRef t.term).2, t.count⟩ else none) := by
  unfold specRefs
  apply List.filterMap_congr
  intro t _
  rw [level_ref, name_ref]
  cases (isRef t.term).1 <;> simp

theorem specRepositories_eq (terms : List TermFacet) (key : String) :
    specRepositories terms key = terms.filterMap (fun t =>
      if (isRepository t.term).1 && repositoryParentKey t.term == some key then
        some ⟨(isRepository t.term).2, t.count, specRefs terms t.term⟩ else none) := by
  unfold specRepositories
  apply List.filterMap_congr
  intro t _
  rw [level_repository, name_repository]
  cases (isRepository t.term).1 <;> simp

theorem specProjects_eq (terms : List TermFacet) (hp : projectsByTable terms = true)
    (key : String) :
    specProjects terms key = terms.filterMap (fun t =>
      if (isProject t.term).1 && projectParentKey t.term == some key then
        some ⟨(isProject t.term).2, t.count, specRepositories terms t.term⟩ else none) := by
  unfold specProjects
  apply List.filterMap_congr
  intro t ht
  rw [level_project terms hp t ht, name_project]
  cases (isProject t.term).1 <;> simp

theorem specOrganizations_eq (terms : List TermFacet) :
    specOrganizations terms = terms.filterMap (fun t =>
      if (isOrganization t.term).1 then
        some ⟨(isOrganization t.term).2, t.count, specProjects terms t.term⟩ else none) := by
  unfold specOrganizations
  apply List.filterMap_congr
  intro t _
  rw [level_organization, name_organization]
  cases (isOrganization t.term).1 <;> simp

theorem hasTerm_iff (terms : List TermFacet) (level : Level) (key : Option String) :
    hasTerm terms level key = true ↔
      ∃ u ∈ terms, (levelByTable u.term == some level) = true ∧ key = some u.term := by
  unfold hasTerm
  simp only [List.any_eq_true, Bool.and_eq_true, beq_iff_eq]

theorem parentsPresent_ref (terms : List TermFacet) (h : parentsPresent terms = true)
    (t : TermFacet) (ht : t ∈ terms) (hs : (isRef t.term).1 = true) :
    ∃ u ∈ terms, (isRepository u.term).1 = true ∧ refParentKey t.term = some u.term := by
  unfold parentsPresent at h
  rw [List.all_eq_true] at h
  have := h t ht
  rw [level_ref, hs] at this
  simp only [Bool.not_true, Bool.false_or, Bool.and_eq_true] at this
  obtain ⟨u, hu, hl, hk⟩ := (hasTerm_iff _ _ _).1 this.1.1
  rw [level_repository] at hl
  exact ⟨u, hu, hl, hk⟩

theorem parentsPresent_repository (terms : List TermFacet) (h : parentsPresent terms = true)
    (t : TermFacet) (ht : t ∈ terms) (hs : (isRepository t.term).1 = true) :
    ∃ u ∈ terms, (isProject u.term).1 = true ∧ repositoryParentKey t.term = some u.term := by
  unfold parentsPresent at h
  rw [List.all_eq_true] at h
  have := h t ht
  rw [level_repository, hs] at this
  simp only [Bool.not_true, Bool.false_or, Bool.and_eq_true] at this
  obtain ⟨u, hu, hl, hk⟩ := (hasTerm_iff _ _ _).1 this.1.2
  exact ⟨u, hu, isProject_of_level u.term hl, hk⟩

theorem parentsPresent_project (terms : List TermFacet) (h : parentsPresent terms = true)
    (hp : projectsByTable terms = true)
    (t : TermFacet) (ht : t ∈ terms) (hs : (isProject t.term).1 = true) :
    ∃ u ∈ terms, (isOrganization u.term).1 = true ∧ projectParentKey t.term = some u.term := by
  unfold parentsPresent at h
  rw [List.all_eq_true] at h
  have := h t ht
  rw [level_project terms hp t ht, hs] at this
  simp only [Bool.not_true, Bool.false_or, Bool.and_eq_true] at this
  obtain ⟨u, hu, hl, hk⟩ := (hasTerm_iff _ _ _).1 this.2
  rw [level_organization] at hl
  exact ⟨u, hu, hl, hk⟩

/-- First linking loop: every repository receives, up to order, its refs. -/
theorem link_refs (ord : List String → List String) (ho : ∀ ks, (ord ks).Perm ks)
    (terms : List TermFacet) (hnd : (terms.map TermFacet.term).Nodup)
    (hpar : parentsPresent terms = true) :
    ∃ mk : TermFacet → RepositoryFacet,
      linkChildren refParentKey
        (fun (p : RepositoryFacet) (c : RefFacet) => { p with refs := p.refs ++ [c] })
        (terms.filterMap (fun t => if (isRepository t.term).1 then
          some (t.term, (⟨(isRepository t.term).2, t.count, []⟩ : RepositoryFacet)) else none))
        (rangeOver ord (terms.filterMap (fun t => if (isRef t.term).1 then
          some (t.term, (⟨(isRef t.term).2, t.count⟩ : RefFacet)) else none))) =
      some (terms.filterMap (fun t => if (isRepository t.term).1 then
        some (t.term, mk t) else none)) ∧
      ∀ t, RepositoryFacet.Equiv (mk t)
        ⟨(isRepository t.term).2, t.count, specRefs terms t.term⟩ := by
  have p1 := rangeOver_perm ord ho _
    (bucket_keys_nodup (fun t => (isRef t.term).1)
      (fun t => (⟨(isRef t.term).2, t.count⟩ : RefFacet)) terms hnd)
  have l1 := link_level refParentKey
    (fun (p : RepositoryFacet) (c : RefFacet) => { p with refs := p.refs ++ [c] })
    (fun t => (isRepository t.term).1)
    (fun t => (⟨(isRepository t.term).2, t.count, []⟩ : RepositoryFacet)) terms
    (rangeOver ord (terms.filterMap (fun t => if (isRef t.term).1 then
        some (t.term, (⟨(isRef t.term).2, t.count⟩ : RefFacet)) else none))) hnd
    (by
      intro kc hkc
      obtain ⟨t, ht, hs, rfl⟩ := mem_bucket _ _ _ _ (p1.subset hkc)
      exact parentsPresent_ref terms hpar t ht hs)
  refine ⟨_, l1, ?_⟩
  intro t
  refine ⟨?_, ?_, ?_⟩
  · simp [foldl_addRef]
  · simp [foldl_addRef]
  · simp only [foldl_addRef, List.nil_append]
    have := ((p1.filter (fun kc => refParentKey kc.1 == some t.term)).map Prod.snd)
    rw [bucket_children (fun t => (isRef t.term).1)
      (fun t => (⟨(isRef t.term).2, t.count⟩ : RefFacet)) refParentKey terms t.term] at this
    rw [specRefs_eq]
    exact this

/-- Second linking loop: every project receives, up to order, its repositories. -/
theorem link_repositories (ord : List String → List String) (ho : ∀ ks, (ord ks).Perm ks)
    (terms : List TermFacet) (hnd : (terms.map TermFacet.term).Nodup)
    (hpar : parentsPresent terms = true) (mk1 : TermFacet → RepositoryFacet)
    (hmk1 : ∀ t, RepositoryFacet.Equiv (mk1 t)
      ⟨(isRepository t.term).2, t.count, specRefs terms t.term⟩) :
    ∃ mk : TermFacet → ProjectFacet,
      linkChildren repositoryParentKey
        (fun (p : ProjectFacet) (c : RepositoryFacet) =>
          { p with repositories := p.repositories ++ [c] })
        (terms.filterMap (fun t => if (isProject t.term).1 then
          some (t.term, (⟨(isProject t.term).2, t.count, []⟩ : ProjectFacet)) else none))
        (rangeOver ord (terms.filterMap (fun t => if (isRepository t.term).1 then
          some (t.term, mk1 t) else none))) =
      some (terms.filterMap (fun t => if (isProject t.term).1 then
        some (t.term, mk t) else none)) ∧
      ∀ t, ProjectFacet.Equiv (mk t)
        ⟨(isProject t.term).2, t.count, specRepositories terms t.term⟩ := by
  have p1 := rangeOver_perm ord ho _
    (bucket_keys_nodup (fun t => (isRepository t.term).1) mk1 terms hnd)
  have l1 := link_level repositoryParentKey
    (fun (p : ProjectFacet) (c : RepositoryFacet) =>
      { p with repositories := p.repositories ++ [c] })
    (fun t => (isProject t.term).1)
    (fun t => (⟨(isProject t.term).2, t.count, []⟩ : ProjectFacet)) terms
    (rangeOver ord (terms.filterMap (fun t => if (isRepository t.term).1 then
        some (t.term, mk1 t) else none))) hnd
    (by
      intro kc hkc
      obtain ⟨t, ht, hs, rfl⟩ := mem_bucket _ _ _ _ (p1.subset hkc)
      exact parentsPresent_repository terms hpar t ht hs)
  refine ⟨_, l1, ?_⟩
  intro t
  refine ⟨?_, ?_, ?_⟩
  · simp [foldl_addRepository]
  · simp [foldl_addRepository]
  · simp only [foldl_addRepository, List.nil_append]
    have := ((p1.filter (fun kc => repositoryParentKey kc.1 == some t.term)).map Prod.snd)
    rw [bucket_children (fun t => (isRepository t.term).1) mk1 repositoryParentKey terms
      t.term] at this
    refine ⟨_, this, ?_⟩
    rw [specRepositories_eq]
    exact forall₂_filterMap_same RepositoryFacet.Equiv
      (fun u => (isRepository u.term).1 && repositoryParentKey u.term == some t.term)
      mk1 (fun u => ⟨(isRepository u.term).2, u.count, specRefs terms u.term⟩) terms
      (fun u _ _ => hmk1 u)

/-- Third linking loop: every organization receives, up to order, its projects. -/
theorem link_projects (ord : List String → List String) (ho : ∀ ks, (ord ks).Perm ks)
    (terms : List TermFacet) (hnd : (terms.map TermFacet.term).Nodup)
    (hpar : parentsPresent terms = true) (hp : projectsByTable terms = true)
    (mk2 : TermFacet → ProjectFacet)
    (hmk2 : ∀ t, ProjectFacet.Equiv (mk2 t)
      ⟨(isProject t.term).2, t.count, specRepositories terms t.term⟩) :
    ∃ mk : TermFacet → OrganizationFacet,
      linkChildren projectParentKey
        (fun (p : OrganizationFacet) (c : ProjectFacet) =>
          { p with projects := p.projects ++ [c] })
        (terms.filterMap (fun t => if (isOrganization t.term).1 then
          some (t.term, (⟨(isOrganization t.term).2, t.count, []⟩ : OrganizationFacet))
          else none))
        (rangeOver ord (terms.filterMap (fun t => if (isProject t.term).1 then
          some (t.term, mk2 t) else none))) =
      some (terms.filterMap (fun t => if (isOrganization t.term).1 then
        some (t.term, mk t) else none)) ∧
      ∀ t, OrganizationFacet.Equiv (mk t)
        ⟨(isOrganization t.term).2, t.count, specProjects terms t.term⟩ := by
  have p1 := rangeOver_perm ord ho _
    (bucket_keys_nodup (fun t => (isProject t.term).1) mk2 terms hnd)
  have l1 := link_level projectParentKey
    (fun (p : OrganizationFacet) (c : ProjectFacet) =>
      { p with projects := p.projects ++ [c] })
    (fun t => (isOrganization t.term).1)
    (fun t => (⟨(isOrganization t.term).2, t.count, []⟩ : OrganizationFacet)) terms
    (rangeOver ord (terms.filterMap (fun t => if (isProject t.term).1 then
        some (t.term, mk2 t) else none))) hnd
    (by
      intro kc hkc
      obtain ⟨t, ht, hs, rfl⟩ := mem_bucket _ _ _ _ (p1.subset hkc)
      exact parentsPresent_project terms hpar hp t ht hs)
  refine ⟨_, l1, ?_⟩
  intro t
  refine ⟨?_, ?_, ?_⟩
  · simp [foldl_addProject]
  · simp [foldl_addProject]
  · simp only [foldl_addProject, List.nil_append]
    have := ((p1.filter (fun kc => projectParentKey kc.1 == some t.term)).map Prod.snd)
    rw [bucket_children (fun t => (isProject t.term).1) mk2 projectParentKey terms
      t.term] at this
    refine ⟨_, this, ?_⟩
    rw [specProjects_eq terms hp]
    exact forall₂_filterMap_same ProjectFacet.Equiv
      (fun u => (isProject u.term).1 && projectParentKey u.term == some t.term)
      mk2 (fun u => ⟨(isProject u.term).2, u.count, specRepositories terms u.term⟩) terms
      (fun u _ _ => hmk2 u)

theorem bucket_values {α : Type} (sel : TermFacet → Bool) (mk : TermFacet → α)
    (terms : List TermFacet) :
    (terms.filterMap (fun t => if sel t then some (t.term, mk t) else none)).map Prod.snd =
      terms.filterMap (fun t => if sel t then some (mk t) else none) := by
  induction terms with
  | nil => rfl
  | cons t rest ih =>
    by_cases hs : sel t = true
    · simp [List.filterMap_cons, hs, ih]
    · simp [List.filterMap_cons, hs, ih]

/-- On pairwise different terms whose parents are present, none of which has several
`:` and no `/`, and for any order of the map iterations, `facetResultToFullRefsFacet`
returns, up to the order of siblings, the tree of the specification: one organization
per Organization term, each Project under the organization before its `:`, each
Repository under its project, each Ref under its repository, every node with its
short name and the count of its term. -/
theorem facetResultToFullRefsFacet_tree (ord : RangeOrder) (terms : List TermFacet)
    (hord : ord.Valid) (hnd : (terms.map TermFacet.term).Nodup)
    (hpar : parentsPresent terms = true) (hp : projectsByTable terms = true) :
    ∃ tree, facetResultToFullRefsFacet ord terms = some tree ∧
      SameUpToOrder OrganizationFacet.Equiv tree (specOrganizations terms) := by
  obtain ⟨ho1, ho2, ho3, ho4⟩ := hord
  have hO : (terms.foldl bucketTerm ⟨[], [], [], []⟩).organizationsMap =
      terms.filterMap (fun t => if (isOrganization t.term).1 then
        some (t.term, (⟨(isOrganization t.term).2, t.count, []⟩ : OrganizationFacet))
        else none) := by
    rw [bucket_organizationsMap,
      bucket_fold (fun t => (isOrganization t.term).1) _ _ _ hnd (by simp)]
    simp
  have hP : (terms.foldl bucketTerm ⟨[], [], [], []⟩).projectsMap =
      terms.filterMap (fun t => if (isProject t.term).1 then
        some (t.term, (⟨(isProject t.term).2, t.count, []⟩ : ProjectFacet)) else none) := by
    rw [bucket_projectsMap, bucket_fold (fun t => (isProject t.term).1) _ _ _ hnd (by simp)]
    simp
  have hR : (terms.foldl bucketTerm ⟨[], [], [], []⟩).repositoriesMap =
      terms.filterMap (fun t => if (isRepository t.term).1 then
        some (t.term, (⟨(isRepository t.term).2, t.count, []⟩ : RepositoryFacet))
        else none) := by
    rw [bucket_repositoriesMap,
      bucket_fold (fun t => (isRepository t.term).1) _ _ _ hnd (by simp)]
    simp
  have hF : (terms.foldl bucketTerm ⟨[], [], [], []⟩).refsMap =
      terms.filterMap (fun t => if (isRef t.term).1 then
        some (t.term, (⟨(isRef t.term).2, t.count⟩ : RefFacet)) else none) := by
    rw [bucket_refsMap, bucket_fold (fun t => (isRef t.term).1) _ _ _ hnd (by simp)]
    simp
  obtain ⟨mk1, e1, hmk1⟩ := link_refs ord.refs ho1 terms hnd hpar
  obtain ⟨mk2, e2, hmk2⟩ := link_repositories ord.repositories ho2 terms hnd hpar mk1 hmk1
  obtain ⟨mk3, e3, hmk3⟩ := link_projects ord.projects ho3 terms hnd hpar hp mk2 hmk2
  have p4 := rangeOver_perm ord.organizations ho4 _
    (bucket_keys_nodup (fun t => (isOrganization t.term).1) mk3 terms hnd)
  refine ⟨(rangeOver ord.organizations (terms.filterMap (fun t =>
    if (isOrganization t.term).1 then some (t.term, mk3 t) else none))).map Prod.snd, ?_, ?_⟩
  · unfold facetResultToFullRefsFacet
    simp only [hO, hP, hR, hF, e1, e2, e3]
  · refine ⟨_, p4.map Prod.snd, ?_⟩
    rw [bucket_values (fun t => (isOrganization t.term).1) mk3 terms,
      specOrganizations_eq terms]
    exact forall₂_filterMap_same OrganizationFacet.Equiv
      (fun u => (isOrganization u.term).1)
      mk3 (fun u => ⟨(isOrganization u.term).2, u.count, specProjects terms u.term⟩) terms
      (fun u _ _ => hmk3 u)

/-- The flat list of scenario 5, visited in insertion order: the result agrees, up
to the order of siblings, with the one organization `orgA`/10 that holds the project
`projA`/7, the repository `repoA`/7 and the refs `main`/5 and `dev`/2. -/
theorem facetResultToFullRefsFacet_tree_witness :
    (scenarioFacets.map TermFacet.term).Nodup ∧ parentsPresent scenarioFacets = true ∧
    projectsByTable scenarioFacets = true ∧
    specOrganizations scenarioFacets =
      [⟨"orgA", 10, [⟨"projA", 7, [⟨"repoA", 7, [⟨"main", 5⟩, ⟨"dev", 2⟩]⟩]⟩]⟩] ∧
    ∃ tree, facetResultToFullRefsFacet RangeOrder.insertion scenarioFacets = some tree ∧
      SameUpToOrder OrganizationFacet.Equiv tree (specOrganizations scenarioFacets) :=
  ⟨by decide, by decide, by decide, by decide,
   facetResultToFullRefsFacet_tree RangeOrder.insertion scenarioFacets
    ⟨fun _ => List.Perm.refl _, fun _ => List.Perm.refl _, fun _ => List.Perm.refl _,
     fun _ => List.Perm.refl _⟩ (by decide) (by decide) (by decide)⟩

/-- Scenario 5 of the specification, in insertion order and in reverse order, and the
tree that the specification describes for it. -/
theorem facetResultToFullRefsFacet_scenario :
    facetResultToFullRefsFacet RangeOrder.insertion scenarioFacets =
      some [⟨"orgA", 10, [⟨"projA", 7, [⟨"repoA", 7, [⟨"main", 5⟩, ⟨"dev", 2⟩]⟩]⟩]⟩] ∧
    facetResultToFullRefsFacet RangeOrder.reversed scenarioFacets =
      some [⟨"orgA", 10, [⟨"projA", 7, [⟨"repoA", 7, [⟨"dev", 2⟩, ⟨"main", 5⟩]⟩]⟩]⟩] ∧
    specOrganizations scenarioFacets =
      [⟨"orgA", 10, [⟨"projA", 7, [⟨"repoA", 7, [⟨"main", 5⟩, ⟨"dev", 2⟩]⟩]⟩]⟩] := by
  decide

/-- C2: the term `a:b:c` has no level by the table, so on the list `[a:b:c]` no Project,
Repository or Ref term lacks its parent and the tree of the specification is empty;
`facetResultToFullRefsFacet` buckets the term as a project and panics on its missing
organization.  On `[a, a:b:c]` it returns the organization `a` with a project `b`,
where the tree of the specification has the organization `a` without projects. -/
theorem facetResultToFullRefsFacet_two_colon_term :
    levelByTable "a:b:c" = none ∧
    parentsPresent [⟨"a:b:c", 1⟩] = true ∧
    specOrganizations [⟨"a:b:c", 1⟩] = [] ∧
    facetResultToFullRefsFacet RangeOrder.insertion [⟨"a:b:c", 1⟩] = none ∧
    parentsPresent [⟨"a", 1⟩, ⟨"a:b:c", 2⟩] = true ∧
    specOrganizations [⟨"a", 1⟩, ⟨"a:b:c", 2⟩] = [⟨"a", 1, []⟩] ∧
    facetResultToFullRefsFacet RangeOrder.insertion [⟨"a", 1⟩, ⟨"a:b:c", 2⟩] =
      some [⟨"a", 1, [⟨"b", 2, []⟩]⟩] := by
  decide

/-! ## Deleting by refs -/

theorem removeRef_all (g : FileIndex) (refs : List String)
    (h : ∀ r ∈ g.metadata.refs, r ∈ refs) : (removeRef g refs).2 = true := by
  unfold removeRef
  simp only [List.isEmpty_iff]
  rw [List.filter_eq_nil_iff]
  intro r hr
  simp [h r hr]

/-- On a document whose refs are all removed, `deleteByDoc` adds one delete entry. -/
theorem deleteByDoc_all_removed (H : Helpers) (c : Client) (batch : List BatchOp) (id : String)
    (g : FileIndex) (refs : List String) (hg : getDoc c.docs id = some g)
    (hall : ∀ r ∈ g.metadata.refs, r ∈ refs) :
    deleteByDoc H c (some batch) (c.Document id) refs =
      some ⟨c, some (batch ++ [BatchOp.delete id]), none⟩ := by
  unfold deleteByDoc
  simp only [Client.Document, hg, Option.map_some', decode_storedFields]
  have : (removeRef { g with content := "" } refs).2 = true := removeRef_all _ refs hall
  simp [this, _delete]

theorem deleteCallback_fold (H : Helpers) (c : Client) (refs : List String) (hits : List String)
    (batch : List BatchOp)
    (hhits : ∀ id ∈ hits, ∃ g, getDoc c.docs id = some g ∧ ∀ r ∈ g.metadata.refs, r ∈ refs) :
    hits.foldlM (fun batch id =>
      match deleteByDoc H c (some batch) (c.Document id) refs with
      | none => none
      | some out => some (out.batch.getD batch)) batch =
    some (batch ++ hits.map BatchOp.delete) := by
  induction hits generalizing batch with
  | nil => simp
  | cons id rest ih =>
    obtain ⟨g, hg, hall⟩ := hhits id (by simp)
    simp only [List.foldlM_cons, deleteByDoc_all_removed H c batch id g refs hg hall]
    simp only [Option.getD_some, Option.bind_eq_bind, Option.some_bind]
    rw [ih _ (fun id' h' => hhits id' (List.mem_cons_of_mem _ h'))]
    simp

/-- A page of documents whose refs are all removed is deleted in one commit. -/
theorem deleteCallback_all_removed (H : Helpers) (c : Client) (refs : List String)
    (hits : List String)
    (hhits : ∀ id ∈ hits, ∃ g, getDoc c.docs id = some g ∧ ∀ r ∈ g.metadata.refs, r ∈ refs) :
    deleteCallback H refs c hits = some (c.Batch (hits.map BatchOp.delete)).1 := by
  unfold deleteCallback
  rw [deleteCallback_fold H c refs hits [] hhits]
  simp

theorem foldl_delete (ids : List String) (docs : List (String × FileIndex)) :
    (ids.map BatchOp.delete).foldl applyBatchOp docs =
      docs.filter (fun kv => !ids.contains kv.1) := by
  induction ids generalizing docs with
  | nil => simp
  | cons id rest ih =>
    simp only [List.map_cons, List.foldl_cons, applyBatchOp, ih, List.filter_filter]
    apply List.filter_congr
    intro kv _
    by_cases h : kv.1 = id
    · simp [h]
    · have : ¬ id = kv.1 := fun e => h e.symm
      simp [h, this, List.contains_cons]

theorem getDoc_of_mem (docs : List (String × FileIndex)) (kv : String × FileIndex)
    (hnd : (docs.map Prod.fst).Nodup) (h : kv ∈ docs) : getDoc docs kv.1 = some kv.2 := by
  induction docs with
  | nil => simp at h
  | cons kv' rest ih =>
    obtain ⟨k', g'⟩ := kv'
    simp only [List.map_cons, List.nodup_cons] at hnd
    rcases List.mem_cons.1 h with rfl | h'
    · simp [getDoc]
    · have : ¬ k' = kv.1 := by
        intro e
        exact hnd.1 (e ▸ List.mem_map_of_mem Prod.fst h')
      simp [getDoc, this, ih hnd.2 h']

/-- Removing the keys of the first `n` entries of a list with distinct keys leaves
the entries after them. -/
theorem filter_not_in_take (docs : List (String × FileIndex)) (n : Nat)
    (hnd : (docs.map Prod.fst).Nodup) :
    docs.filter (fun kv => !((docs.take n).map Prod.fst).contains kv.1) = docs.drop n := by
  conv_lhs => rw [← List.take_append_drop n docs]
  rw [← List.take_append_drop n docs, List.map_append, List.nodup_append] at hnd
  obtain ⟨_, _, hdisj⟩ := hnd
  rw [List.filter_append]
  have h1 : (docs.take n).filter
      (fun kv => !(((docs.take n ++ docs.drop n).take n).map Prod.fst).contains kv.1) = [] := by
    rw [List.filter_eq_nil_iff]
    intro kv hkv
    have : kv.1 ∈ (docs.take n).map Prod.fst := List.mem_map_of_mem Prod.fst hkv
    simp only [List.take_append_drop]
    simpa using this
  have h2 : (docs.drop n).filter
      (fun kv => !(((docs.take n ++ docs.drop n).take n).map Prod.fst).contains kv.1) =
      docs.drop n := by
    rw [List.filter_eq_self]
    intro kv hkv
    have : ¬ kv.1 ∈ (docs.take n).map Prod.fst :=
      fun hin => hdisj hin (List.mem_map_of_mem Prod.fst hkv)
    simp only [List.take_append_drop]
    simpa using this
  rw [h1, h2, List.nil_append]

theorem Search_all_match (c : Client) (r : SearchRequest)
    (h : ∀ kv ∈ c.docs, r.query kv.2 = true) :
    c.Search r = ((c.docs.drop r.From).take r.Size).map Prod.fst := by
  unfold Client.Search
  rw [List.filter_eq_self.2 h]

/-- When between 101 and 200 documents match and every one of them loses all its
refs, `DeleteIndexByRefs` deletes the first page of 100 and returns: the next search
starts at `From = 100` in a result that has shrunk by 100, so the documents after
the first page are never visited and stay in the index. -/
theorem DeleteIndexByRefs_leaves_second_page (H : Helpers) (c : Client)
    (organization project repository : String) (refs : List String) (fuel : Nat)
    (hcommit : c.commitError = none) (hnd : (c.docs.map Prod.fst).Nodup)
    (hmatch : ∀ kv ∈ c.docs, refsQuery organization project repository refs kv.2 = true)
    (hall : ∀ kv ∈ c.docs, ∀ r ∈ kv.2.metadata.refs, r ∈ refs)
    (hlen : 100 < c.docs.length) (hlen2 : c.docs.length ≤ 200) :
    DeleteIndexByRefs H (fuel + 2) c organization project repository refs =
      LoopResult.done ⟨c.docs.drop 100, none, c.writes + 1⟩ := by
  unfold DeleteIndexByRefs searchByRefs
  -- first page
  have hs1 : c.Search ⟨refsQuery organization project repository refs, 0, 100⟩ =
      (c.docs.take 100).map Prod.fst := by
    rw [Search_all_match c _ hmatch]; simp
  have hcb : deleteCallback H refs c ((c.docs.take 100).map Prod.fst) =
      some ⟨c.docs.drop 100, none, c.writes + 1⟩ := by
    rw [deleteCallback_all_removed]
    · simp only [Client.Batch, hcommit, foldl_delete, filter_not_in_take c.docs 100 hnd]
    · intro id hid
      obtain ⟨kv, hkv, rfl⟩ := List.mem_map.1 hid
      have hmem : kv ∈ c.docs := List.mem_of_mem_take hkv
      exact ⟨kv.2, getDoc_of_mem c.docs kv hnd hmem, hall kv hmem⟩
  have hl1 : ((c.docs.take 100).map Prod.fst).length = 100 := by
    simp [List.length_take]; omega
  -- second page
  have hs2 : (⟨c.docs.drop 100, none, c.writes + 1⟩ : Client).Search
      ⟨refsQuery organization project repository refs, 0 + 100, 100⟩ = [] := by
    rw [Search_all_match _ _ (fun kv hkv => hmatch kv (List.mem_of_mem_drop hkv))]
    have : ((c.docs.drop 100).drop (0 + 100)) = [] := by
      rw [List.drop_eq_nil_iff]; simp; omega
    simp [this]
  simp only [handleSearch, hs1, hl1, hcb, hs2]
  simp

set_option maxRecDepth 100000 in
theorem sampleClient_ids_nodup : ((sampleClient 101).docs.map Prod.fst).Nodup := by
  decide!

theorem sampleClient_match (n : Nat) :
    ∀ kv ∈ (sampleClient n).docs, refsQuery "o" "p" "r" ["main"] kv.2 = true := by
  intro kv hkv
  simp only [sampleClient, List.mem_map] at hkv
  obtain ⟨i, _, rfl⟩ := hkv
  rfl

theorem sampleClient_refs (n : Nat) :
    ∀ kv ∈ (sampleClient n).docs, ∀ r ∈ kv.2.metadata.refs, r ∈ ["main"] := by
  intro kv hkv r hr
  simp only [sampleClient, List.mem_map] at hkv
  obtain ⟨i, _, rfl⟩ := hkv
  exact hr

set_option maxRecDepth 100000 in
/-- C1: with 101 documents of scope `o:p/r` on the ref `main`,
`DeleteIndexByRefs(o, p, r, [main])` returns after the first page and leaves the
last document in the index, still carrying `main`. -/
theorem DeleteIndexByRefs_skips_second_page :
    DeleteIndexByRefs sampleHelpers 3 (sampleClient 101) "o" "p" "r" ["main"] =
      LoopResult.done ⟨[(getDocId sampleHelpers (sampleDoc 100), sampleDoc 100)], none, 1⟩ := by
  rw [DeleteIndexByRefs_leaves_second_page sampleHelpers (sampleClient 101) "o" "p" "r"
    ["main"] 1 rfl sampleClient_ids_nodup (sampleClient_match 101) (sampleClient_refs 101)
    (by simp [sampleClient]) (by simp [sampleClient])]
  rfl

/-! ## Paging -/

theorem Search_eq_page (c : Client) (q : FileIndex → Bool) (start size : Nat) :
    c.Search ⟨q, start, size⟩ =
      ((((c.docs.filter (fun kv => q kv.2)).map Prod.fst).drop start).take size) := by
  simp [Client.Search, List.map_take, List.map_drop]

theorem runPages_cons_some (callback : Client → List String → Option Client) (c c1 : Client)
    (page : List String) (rest : List (List String)) (h : callback c page = some c1) :
    runPages callback c (page :: rest) = runPages callback c1 rest := by
  simp [runPages, List.foldlM_cons, h]

theorem runPages_cons_none (callback : Client → List String → Option Client) (c : Client)
    (page : List String) (rest : List (List String)) (h : callback c page = none) :
    runPages callback c (page :: rest) = LoopResult.panicked := by
  simp [runPages, List.foldlM_cons, h]

/-- With a callback that leaves the result list as it is and fuel beyond the length of what
is left of the result list, `handleSearch` calls the callback on the pages of the
rest of the result list, one after the other, and returns. -/
theorem handleSearch_pages (callback : Client → List String → Option Client)
    (q : FileIndex → Bool)
    (hcb : ∀ c0 hits c1, callback c0 hits = some c1 →
      (c1.docs.filter (fun kv => q kv.2)).map Prod.fst =
        (c0.docs.filter (fun kv => q kv.2)).map Prod.fst)
    (size : Nat) (fuel : Nat) (c : Client) (start : Nat)
    (hfuel : ((((c.docs.filter (fun kv => q kv.2)).map Prod.fst).drop start)).length < fuel) :
    handleSearch callback fuel c ⟨q, start, size⟩ =
      runPages callback c (pagesOf size fuel
        (((c.docs.filter (fun kv => q kv.2)).map Prod.fst).drop start)) := by
  induction fuel generalizing c start with
  | zero => omega
  | succ fuel ih =>
    unfold handleSearch
    simp only [Search_eq_page]
    by_cases hempty : ((((c.docs.filter (fun kv => q kv.2)).map Prod.fst).drop start).take
        size).length = 0
    · simp only [hempty, if_true, pagesOf]
      rfl
    · simp only [hempty, if_false, pagesOf]
      cases hc : callback c ((((c.docs.filter (fun kv => q kv.2)).map Prod.fst).drop start).take
          size) with
      | none =>
        simp only []
        rw [runPages_cons_none _ _ _ _ hc]
      | some c1 =>
        simp only []
        rw [runPages_cons_some _ _ _ _ _ hc, List.drop_drop]
        have hdocs := hcb _ _ _ hc
        have := ih c1 (start + ((((c.docs.filter (fun kv => q kv.2)).map Prod.fst).drop
          start).take size).length) (by
            rw [hdocs]
            have h1 : 0 < ((((c.docs.filter (fun kv => q kv.2)).map Prod.fst).drop start).take
              size).length := Nat.pos_of_ne_zero hempty
            simp only [List.length_drop, List.length_take] at hfuel h1 ⊢
            omega)
        rw [hdocs] at this
        rw [this]

theorem pagesOf_nil (size fuel : Nat) : pagesOf size fuel [] = [] := by
  cases fuel <;> simp [pagesOf]

theorem pagesOf_ne_nil (size fuel : Nat) (l : List String) :
    ∀ p ∈ pagesOf size fuel l, p ≠ [] := by
  induction fuel generalizing l with
  | zero => simp [pagesOf]
  | succ fuel ih =>
    intro p hp
    unfold pagesOf at hp
    by_cases h : (l.take size).length = 0
    · simp [h] at hp
    · simp only [h, if_false, List.mem_cons] at hp
      rcases hp with rfl | hp
      · intro e; exact h (by rw [e]; rfl)
      · exact ih _ p hp

theorem pagesOf_join (size : Nat) (hsize : 0 < size) (fuel : Nat) (l : List String)
    (h : l.length < fuel) : (pagesOf size fuel l).flatten = l := by
  induction fuel generalizing l with
  | zero => omega
  | succ fuel ih =>
    unfold pagesOf
    by_cases he : (l.take size).length = 0
    · have : l = [] := by
        cases l with
        | nil => rfl
        | cons a t =>
          simp only [List.length_take, List.length_cons] at he
          omega
      simp [this]
    · simp only [he, if_false, List.flatten_cons]
      have hpos : 0 < (l.take size).length := Nat.pos_of_ne_zero he
      rw [ih (l.drop (l.take size).length) (by
        simp only [List.length_drop, List.length_take] at hpos ⊢
        omega)]
      have : (l.take size).length = min size l.length := List.length_take size l
      have e2 : l.drop (l.take size).length = l.drop size := by
        rw [this]
        by_cases hle : size ≤ l.length
        · rw [Nat.min_eq_left hle]
        · have h1 : l.length ≤ size := by omega
          rw [Nat.min_eq_right h1, List.drop_eq_nil_of_le (le_refl _),
            List.drop_eq_nil_of_le h1]
      rw [e2, List.take_append_drop]

theorem pagesOf_getElem (size fuel : Nat) (l : List String) (i : Nat) (p : List String)
    (h : (pagesOf size fuel l)[i]? = some p) : p = (l.drop (size * i)).take size := by
  induction fuel generalizing l i with
  | zero => simp [pagesOf] at h
  | succ fuel ih =>
    unfold pagesOf at h
    by_cases he : (l.take size).length = 0
    · simp [he] at h
    · simp only [he, if_false] at h
      cases i with
      | zero =>
        simp only [List.getElem?_cons_zero, Option.some.injEq] at h
        simp [← h]
      | succ i =>
        simp only [List.getElem?_cons_succ] at h
        have hlen : (l.take size).length = min size l.length := List.length_take size l
        by_cases hle : size ≤ l.length
        · rw [hlen, Nat.min_eq_left hle] at h
          have := ih _ _ h
          rw [this, List.drop_drop]
          congr 2
          rw [Nat.mul_succ, Nat.add_comm]
        · have h1 : l.length ≤ size := by omega
          rw [hlen, Nat.min_eq_right h1, List.drop_eq_nil_of_le (le_refl _), pagesOf_nil] at h
          simp at h

/-- C14: when the callback leaves the result list of the request unchanged and the
fuel exceeds the length of that list, the scan of `searchByRefs` returns (it does
not run out of fuel) after calling the callback on the pages of the result list one
after the other: no page is empty, the pages concatenated are the whole result list,
and page `i` is the slice of 100 hits that starts at `From = 100 * i`. -/
theorem searchByRefs_scans_every_page (c : Client) (organization project repository : String)
    (refs : List String) (callback : Client → List String → Option Client) (fuel : Nat)
    (hcb : ∀ c0 hits c1, callback c0 hits = some c1 →
      refsResults c1 organization project repository refs =
        refsResults c0 organization project repository refs)
    (hfuel : (refsResults c organization project repository refs).length < fuel) :
    searchByRefs fuel c organization project repository refs callback =
      runPages callback c
        (pagesOf 100 fuel (refsResults c organization project repository refs)) ∧
    searchByRefs fuel c organization project repository refs callback ≠ LoopResult.outOfFuel ∧
    (∀ p ∈ pagesOf 100 fuel (refsResults c organization project repository refs), p ≠ []) ∧
    (pagesOf 100 fuel (refsResults c organization project repository refs)).flatten =
      refsResults c organization project repository refs ∧
    (∀ i p, (pagesOf 100 fuel (refsResults c organization project repository refs))[i]? =
        some p →
      p = ((refsResults c organization project repository refs).drop (100 * i)).take 100) := by
  have hmain : searchByRefs fuel c organization project repository refs callback =
      runPages callback c
        (pagesOf 100 fuel (refsResults c organization project repository refs)) := by
    unfold searchByRefs
    have := handleSearch_pages callback (refsQuery organization project repository refs) hcb
      100 fuel c 0 (by simpa [refsResults] using hfuel)
    simpa [refsResults] using this
  refine ⟨hmain, ?_, pagesOf_ne_nil _ _ _, pagesOf_join 100 (by decide) fuel _ hfuel,
    fun i p h => pagesOf_getElem _ _ _ i p h⟩
  rw [hmain]
  unfold runPages
  split <;> simp

/-- A scan over 250 matching documents with a callback that only counts hits. -/
theorem searchByRefs_scans_every_page_witness :
    (refsResults (sampleClient 250) "o" "p" "r" ["main"]).length < 251 ∧
    searchByRefs 251 (sampleClient 250) "o" "p" "r" ["main"] countingCallback =
      runPages countingCallback (sampleClient 250)
        (pagesOf 100 251 (refsResults (sampleClient 250) "o" "p" "r" ["main"])) ∧
    searchByRefs 251 (sampleClient 250) "o" "p" "r" ["main"] countingCallback ≠
      LoopResult.outOfFuel ∧
    (∀ p ∈ pagesOf 100 251 (refsResults (sampleClient 250) "o" "p" "r" ["main"]), p ≠ []) ∧
    (pagesOf 100 251 (refsResults (sampleClient 250) "o" "p" "r" ["main"])).flatten =
      refsResults (sampleClient 250) "o" "p" "r" ["main"] ∧
    (∀ i p, (pagesOf 100 251 (refsResults (sampleClient 250) "o" "p" "r" ["main"]))[i]? =
        some p →
      p = ((refsResults (sampleClient 250) "o" "p" "r" ["main"]).drop (100 * i)).take 100) :=
  have hlen : (refsResults (sampleClient 250) "o" "p" "r" ["main"]).length < 251 := by
    have : (refsResults (sampleClient 250) "o" "p" "r" ["main"]).length ≤
        (sampleClient 250).docs.length := by
      simp only [refsResults, List.length_map]
      exact List.length_filter_le _ _
    have h2 : (sampleClient 250).docs.length = 250 := by simp [sampleClient]
    omega
  ⟨hlen, searchByRefs_scans_every_page (sampleClient 250) "o" "p" "r" ["main"] countingCallback
    251 (by
      intro c0 hits c1 h
      simp only [countingCallback, Option.some.injEq] at h
      subst h
      rfl) hlen⟩

/-- Three documents and pages of two: the pages and the run of the scan. -/
theorem handleSearch_small_scan :
    pagesOf 2 4 ["a", "b", "c"] = [["a", "b"], ["c"]] ∧
    handleSearch countingCallback 4 (sampleClient 3) ⟨fun _ => true, 0, 2⟩ =
      LoopResult.done { sampleClient 3 with writes := 3 } := by
  decide

/-! ## Batch operations -/

/-- Every DELETE operation ends with a delete entry for the blob of the request,
whatever `delete` has put into the batch. -/
theorem batchStep_DELETE (H : Helpers) (c : Client) (batch : List BatchOp) (f : FileIndex)
    (out : Outcome) (h : delete H c (some batch) f = some out) :
    batchStep H c batch ⟨Method.DELETE, f⟩ =
      some (out.batch.getD batch ++ [BatchOp.delete f.blob]) := by
  simp [batchStep, h]

/-- C11: a DELETE of the ref `main` on the document `readmeBoth`, which keeps the ref
`dev`, puts into the batch the rewrite with the reduced refs and then a delete entry
for the id `H`, the blob of the request.  When the id of a document is
`organization:project:repository:blob` the commit leaves the rewritten document in
the index; when the id is the blob, the commit deletes the document although the ref
`dev` remains. -/
theorem BatchFileIndex_DELETE_adds_delete_entry :
    ([⟨Method.DELETE, readmeMain⟩] : List FileIndexOperation).foldlM
        (batchStep sampleHelpers (readmeBothClient sampleHelpers)) [] =
      some [BatchOp.index "orgA:projA:repoA:H"
          ⟨"H", ⟨"orgA", "projA", "repoA", ["dev"], "README.md", ".md"⟩,
           ["orgA:projA/repoA:dev"], ""⟩,
        BatchOp.delete "H"] ∧
    (BatchFileIndex sampleHelpers (readmeBothClient sampleHelpers)
        [⟨Method.DELETE, readmeMain⟩]).map (fun r => r.1.docs.map Prod.fst) =
      some ["orgA:projA:repoA:H"] ∧
    ([⟨Method.DELETE, readmeMain⟩] : List FileIndexOperation).foldlM
        (batchStep blobIdHelpers (readmeBothClient blobIdHelpers)) [] =
      some [BatchOp.index "H"
          ⟨"H", ⟨"orgA", "projA", "repoA", ["dev"], "README.md", ".md"⟩,
           ["orgA:projA/repoA:dev"], ""⟩,
        BatchOp.delete "H"] ∧
    (BatchFileIndex blobIdHelpers (readmeBothClient blobIdHelpers)
        [⟨Method.DELETE, readmeMain⟩]).map (fun r => r.1.docs) = some [] := by
  decide

/-- C15: on an empty index, the batch `[ADD readmeMain, ADD readmeDev]` leaves one
document with the refs `[dev]` only, because both upserts find no document and the
second write replaces the first; the two calls of `UpsertFileIndex` in a row leave
the refs `[main, dev]`. -/
theorem BatchFileIndex_two_ADDs_lose_first_ref :
    getDocId sampleHelpers readmeMain = getDocId sampleHelpers readmeDev ∧
    (BatchFileIndex sampleHelpers emptyClient
        [⟨Method.ADD, readmeMain⟩, ⟨Method.ADD, readmeDev⟩]).map
      (fun r => r.1.docs.map (fun kv => (kv.1, kv.2.metadata.refs))) =
      some [("orgA:projA:repoA:H", ["dev"])] ∧
    ((UpsertFileIndex sampleHelpers emptyClient readmeMain).bind
        (fun out => UpsertFileIndex sampleHelpers out.client readmeDev)).map
      (fun out => out.client.docs.map (fun kv => (kv.1, kv.2.metadata.refs))) =
      some [("orgA:projA:repoA:H", ["main", "dev"])] := by
  decide

/-! ## Search -/

/-- A hit whose document is absent makes the loop body of `search` panic. -/
theorem searchHit_absent (c : Client) (env : SearchEnv) (hit : BackendHit)
    (h : getDoc c.docs hit.id = none) : searchHit c env hit = none := by
  simp [searchHit, Client.Document, h]

/-- C12: when the hit list holds, after the hit of the indexed `readmeMain`, the id of
a document that is not in the backend, `Document` returns no document and `search`
panics in `docToFileIndex` instead of skipping the hit; with the live hit alone it
returns the one hit. -/
theorem search_panics_on_absent_document :
    readmeClient.Document "orgA:projA:repoA:gone" = none ∧
    search RangeOrder.insertion readmeClient staleHitEnv "hello" ⟨[]⟩ = none ∧
    (search RangeOrder.insertion readmeClient liveHitEnv "hello" ⟨[]⟩).map SearchResult.hits =
      some [⟨⟨"H", readmeMain.metadata⟩, [⟨1, "hello world"⟩], ["hello"]⟩] := by
  decide

theorem extFilters_fold (exts : List String) (acc : List Query) :
    exts.foldl (fun extFilters ext =>
      if ext != "" then extFilters ++ [Query.queryString ("metadata.ext:" ++ ext)]
      else extFilters) acc =
    acc ++ (exts.filter (fun ext => ext != "")).map
      (fun ext => Query.queryString ("metadata.ext:" ++ ext)) := by
  induction exts generalizing acc with
  | nil => simp
  | cons e rest ih =>
    simp only [List.foldl_cons, ih, List.filter_cons]
    by_cases h : (e != "") = true
    · simp [h]
    · simp [h]

theorem filteredQuery_eq (q : Query) (filterParams : FilterParams) :
    filteredQuery q filterParams =
      if (filterParams.ext.filter (fun ext => ext != "")).isEmpty then q
      else Query.conjunction [q, Query.disjunction
        ((filterParams.ext.filter (fun ext => ext != "")).map
          (fun ext => Query.queryString ("metadata.ext:" ++ ext)))] := by
  unfold filteredQuery extFilters
  rw [extFilters_fold]
  cases h : filterParams.ext.filter (fun ext => ext != "") with
  | nil => simp
  | cons a l => simp

/-- The query built for the ext lists `[""]`, `[".go", ""]` and `[".go", ".py"]`. -/
theorem filteredQuery_skips_empty_ext :
    filteredQuery (Query.parsed "foo") ⟨[""]⟩ = Query.parsed "foo" ∧
    filteredQuery (Query.parsed "foo") ⟨[".go", ""]⟩ =
      Query.conjunction [Query.parsed "foo",
        Query.disjunction [Query.queryString "metadata.ext:.go"]] ∧
    filteredQuery (Query.parsed "foo") ⟨[".go", ".py"]⟩ =
      Query.conjunction [Query.parsed "foo",
        Query.disjunction [Query.queryString "metadata.ext:.go",
          Query.queryString "metadata.ext:.py"]] := by
  refine ⟨rfl, rfl, rfl⟩

/-- C13 (amended): for a query string that parses to `q`, `search` returns what it
makes of the backend's answer to one query: `q` itself when no entry of the ext list
is a non-empty string, and otherwise the conjunction of `q` with the disjunction of
one filter `metadata.ext:<ext>` per non-empty entry, in list order. -/
theorem search_sends_filtered_query (ord : RangeOrder) (c : Client) (env : SearchEnv)
    (queryString : String) (filterParams : FilterParams) (q : Query)
    (hq : env.parse queryString = some q) :
    search ord c env queryString filterParams =
      searchResultOf ord c env queryString filterParams
        (env.backend
          (if (filterParams.ext.filter (fun ext => ext != "")).isEmpty then q
           else Query.conjunction [q, Query.disjunction
            ((filterParams.ext.filter (fun ext => ext != "")).map
              (fun ext => Query.queryString ("metadata.ext:" ++ ext)))])) := by
  unfold search
  simp only [hq]
  rw [filteredQuery_eq]

/-- The ext list `[".go", "", ".py"]` on the probing backend: the answer that `search`
works on is the one to the conjunction with two filters. -/
theorem search_sends_filtered_query_witness :
    probeEnv.parse "foo" = some (Query.parsed "foo") ∧
    search RangeOrder.insertion emptyClient probeEnv "foo" ⟨[".go", "", ".py"]⟩ =
      searchResultOf RangeOrder.insertion emptyClient probeEnv "foo" ⟨[".go", "", ".py"]⟩
        (probeEnv.backend
          (if ((⟨[".go", "", ".py"]⟩ : FilterParams).ext.filter
              (fun ext => ext != "")).isEmpty then Query.parsed "foo"
           else Query.conjunction [Query.parsed "foo", Query.disjunction
            (((⟨[".go", "", ".py"]⟩ : FilterParams).ext.filter (fun ext => ext != "")).map
              (fun ext => Query.queryString ("metadata.ext:" ++ ext)))])) ∧
    (search RangeOrder.insertion emptyClient probeEnv "foo" ⟨[".go", "", ".py"]⟩).map
      SearchResult.size = some 2 :=
  ⟨rfl, search_sends_filtered_query RangeOrder.insertion emptyClient probeEnv "foo"
    ⟨[".go", "", ".py"]⟩ (Query.parsed "foo") rfl, by decide⟩

/-- C13: the backend answers the conjunction with one filter per entry of `[""]` with
the total 1 and of `[".go", ""]` with the total 2, but `search` with the non-empty ext
list `[""]` gets the total 100 of the bare parsed query, and with `[".go", ""]` the
total 1 of a disjunction with one filter. -/
theorem search_skips_empty_ext :
    (probeBackend (Query.conjunction [Query.parsed "foo",
      Query.disjunction [Query.queryString "metadata.ext:"]])).total = 1 ∧
    (search RangeOrder.insertion emptyClient probeEnv "foo" ⟨[""]⟩).map SearchResult.size =
      some 100 ∧
    (probeBackend (Query.conjunction [Query.parsed "foo",
      Query.disjunction [Query.queryString "metadata.ext:.go",
        Query.queryString "metadata.ext:"]])).total = 2 ∧
    (search RangeOrder.insertion emptyClient probeEnv "foo" ⟨[".go", ""]⟩).map
      SearchResult.size = some 1 := by
  decide

/-! ## Importer -/

/-- C16: for the URL segment `my.github.git` the importer derives the name `my`, and
for the segment `my.github`, which does not end in `.git`, again `my`; dropping a
trailing `.git` gives `my.github` in both cases.  Segments without an inner `.git`
come out as described. -/
theorem Run_repoName_cuts_at_first_git :
    Run_repoName "https://github.com/foo/my.github.git" = some "my" ∧
    specRepoName "https://github.com/foo/my.github.git" = "my.github" ∧
    Run_repoName "https://github.com/foo/my.github" = some "my" ∧
    specRepoName "https://github.com/foo/my.github" = "my.github" ∧
    Run_repoName "https://github.com/wadahiro/gitss.git" = some "gitss" ∧
    Run_repoName "https://github.com/wadahiro/gitss" = some "gitss" := by
  decide

end GitS
